import Mathlib

/-!
Shallow embedding of `yb/docdb/packed_row.cc`: the stateful `RowPacker`
(packed-row encoder) and the stateless `ReplaceSchemaVersionInPackedValue`
transform, with proofs about their behaviour.
Bytes are modelled as `Nat` (each byte `< 256` where produced), buffers as
`List Nat`, machine-size arithmetic as `Nat`/`Int`, and fallible operations
as `Except PackerError`.  External collaborators that the excerpt consumes
(schema-packing metadata, the varint codec, the row-kind marker byte, the
default block size) are modelled from the specification and marked as such.
The definitions come first — the embedding of the source, the relations the
proofs use, and the concrete fixtures for witnesses — followed by all
theorems.
-/
/-- Modelled from the spec: the 1-byte row kind marker `PACKED_ROW`
(`ValueEntryTypeAsChar::kPackedRow`).  Its concrete value is external to the
excerpt; only its presence as a single fixed byte matters here. -/
def kPackedRow : Nat := 33

/-- Modelled from the spec: the process-wide default block size used when the
caller passes a size limit of 0 (`FLAGS_db_block_size_bytes`). -/
def db_block_size_bytes : Nat := 32768

/-- `PackedSizeLimit`: a zero requested limit means the default block size. -/
def PackedSizeLimit (value : Nat) : Nat :=
  if value = 0 then db_block_size_bytes else value

/-- Recursion core of the varint encoder, structurally recursive on a fuel
bound so that concrete encodings compute by `decide`; `fuel = n` always
suffices since the argument shrinks by a factor of 128 each step. -/
def fastEncodeVarIntGo : Nat → Nat → List Nat
  | 0, n => [n]
  | fuel + 1, n =>
    if n < 128 then [n]
    else (n % 128 + 128) :: fastEncodeVarIntGo fuel (n / 128)

/-- Modelled from the spec: unsigned LEB-style varint encoding
(`util::FastEncodeUnsignedVarInt`): low 7 bits first, high bit of a byte set
iff more bytes follow. -/
def FastEncodeUnsignedVarInt (n : Nat) : List Nat :=
  fastEncodeVarIntGo n n

/-- Modelled from the spec: unsigned LEB-style varint decoding
(`util::FastDecodeUnsignedVarInt`); yields the value and the remaining
bytes, or `none` on a truncated encoding. -/
def FastDecodeUnsignedVarInt : List Nat → Option (Nat × List Nat)
  | [] => none
  | b :: rest =>
    if b < 128 then some (b, rest)
    else
      match FastDecodeUnsignedVarInt rest with
      | none => none
      | some (n, rest') => some (b - 128 + 128 * n, rest')

/-- The little-endian 4-byte image of a value, as stored by
`LittleEndian::Store32`; inputs wider than 32 bits are truncated, which is
the `narrow_cast<uint32_t>` at the call site. -/
def le32 (v : Nat) : List Nat :=
  [v % 256, v / 256 % 256, v / 256 ^ 2 % 256, v / 256 ^ 3 % 256]

/-- In-place overwrite of the 4 bytes of `buf` at `pos` with the
little-endian image of `v`
(`LittleEndian::Store32(result_.mutable_data() + pos, v)`). -/
def Store32 (buf : List Nat) (pos : Nat) (v : Nat) : List Nat :=
  buf.take pos ++ le32 v ++ buf.drop (pos + 4)

/-- Modelled from the spec: per-column packing metadata (`ColumnPackingData`):
the column id (totally ordered, strictly increasing across a packing), its
nullability, its fixed encoded width (meaningful when not variable-length),
and whether the column is packed as variable-length (`varlen()`). -/
structure ColumnPackingData where
  id : Nat
  nullable : Bool
  size : Nat
  varlen : Bool
deriving DecidableEq, Repr

/-- Modelled from the spec: the ordered column metadata for one schema
version (`SchemaPacking`), with the skipped-column predicate
(`SkippedColumn`) given as an explicit list of column ids. -/
structure SchemaPacking where
  columns : List ColumnPackingData
  skippedColumns : List Nat
deriving DecidableEq, Repr

/-- `SchemaPacking::SkippedColumn`: whether the given column id is a
deliberately skipped (e.g. dropped) column of this packing. -/
def SchemaPacking.SkippedColumn (p : SchemaPacking) (column_id : Nat) : Bool :=
  p.skippedColumns.contains column_id

/-- Modelled from the spec: `SchemaPacking::prefix_len` = 4 bytes per
variable-length column (one offset-table slot each). -/
def SchemaPacking.prefix_len (p : SchemaPacking) : Nat :=
  4 * (p.columns.filter (fun c => c.varlen)).length

/-- The packable-value interface: the three operations the `DoAddValue`
template uses on any of the four value shapes — `IsNull`,
`PackedValueSize`, and `PackValue` (given as the bytes it appends). -/
structure PackableValue where
  isNull : Bool
  packedSize : Nat
  packBytes : List Nat
deriving DecidableEq, Repr

/-- The `Slice` value shape: null iff empty; packs its own bytes. -/
def sliceValue (s : List Nat) : PackableValue :=
  { isNull := s.isEmpty, packedSize := s.length, packBytes := s }

/-- The `ValueSlicePair` value shape: two concatenated raw byte spans; null
iff both are empty. -/
def valueSlicePair (a b : List Nat) : PackableValue :=
  { isNull := a.isEmpty && b.isEmpty, packedSize := a.length + b.length,
    packBytes := a ++ b }

/-- The error kinds the embedded operations surface.  `fault` models an
out-of-range descriptor access that the C++ would perform if the `for (;;)`
loop ran past the end of the column list (undefined behaviour there). -/
inductive PackerError where
  | invalidArgument
  | corruption
  | notFound
  | illegalState
  | fault
deriving DecidableEq, Repr

instance {e a : Type} [DecidableEq e] [DecidableEq a] :
    DecidableEq (Except e a) := fun x y =>
  match x, y with
  | .ok u, .ok w =>
    if h : u = w then .isTrue (by rw [h]) else .isFalse (by
      intro hc
      injection hc with h1
      exact h h1)
  | .error u, .error w =>
    if h : u = w then .isTrue (by rw [h]) else .isFalse (by
      intro hc
      injection hc with h1
      exact h h1)
  | .ok _, .error _ => .isFalse (by intro hc; cases hc)
  | .error _, .ok _ => .isFalse (by intro hc; cases hc)

/-- `RowPacker` state: the bound packing, the resolved size limit, the
growing output buffer `result_`, the end of the reserved prefix region
`prefix_end_`, the offset-table write cursor `varlen_write_pos_`, and the
next-descriptor cursor `idx_`. -/
structure RowPacker where
  packing : SchemaPacking
  packed_size_limit : Nat
  result : List Nat
  prefix_end : Nat
  varlen_write_pos : Nat
  idx : Nat
deriving DecidableEq, Repr

/-- `RowPacker::RowPacker` + `RowPacker::Init`: append the encoded control
fields, the row-kind marker and the schema-version varint, reserve
zero-filled offset-table space, record the prefix end and set the
offset-table write cursor to the table's start. -/
def RowPacker.Init (version : Nat) (packing : SchemaPacking)
    (packed_size_limit : Nat) (control_fields : List Nat) : RowPacker :=
  let base := control_fields ++ [kPackedRow] ++ FastEncodeUnsignedVarInt version
      ++ List.replicate packing.prefix_len 0
  { packing := packing
    packed_size_limit := PackedSizeLimit packed_size_limit
    result := base
    prefix_end := base.length
    varlen_write_pos := base.length - packing.prefix_len
    idx := 0 }

/-- `RowPacker::Finished`. -/
def RowPacker.Finished (p : RowPacker) : Bool :=
  p.idx == p.packing.columns.length

/-- `RowPacker::Restart`: reset both cursors and truncate the buffer back to
the end of the reserved prefix region. -/
def RowPacker.Restart (p : RowPacker) : RowPacker :=
  { p with
    idx := 0
    varlen_write_pos := p.prefix_end - p.packing.prefix_len
    result := p.result.take p.prefix_end }

/-- The offset-table slot write of the `DoAddValue` loop
(`LittleEndian::Store32(result_.mutable_data() + varlen_write_pos_,
narrow_cast<uint32_t>(result_.size() - prefix_end_)); varlen_write_pos_ +=
sizeof(uint32_t);`). -/
def RowPacker.writeVarlenSlot (p : RowPacker) : RowPacker :=
  { p with
    result := Store32 p.result p.varlen_write_pos
      (p.result.length - p.prefix_end)
    varlen_write_pos := p.varlen_write_pos + 4 }

/-- One iteration of the `RowPacker::DoAddValue` loop body after the ordering
check `column_data.id > column_id` has not fired: consume descriptor `col`
(`++idx_`), then pack the value, an implicit null, or nothing on overflow,
then write the offset-table slot (variable-length) or check the encoded size
(fixed-width).  The returned flag is the step's contribution to the loop's
`result` variable: `false` iff this step omitted the value for overflow. -/
def RowPacker.consumeColumn (p : RowPacker) (col : ColumnPackingData)
    (column_id : Nat) (v : PackableValue) (tail_size : Int) :
    Except PackerError (RowPacker × Bool) :=
  let p1 : RowPacker := { p with idx := p.idx + 1 }
  let prev_size := p1.result.length
  let step : Except PackerError (RowPacker × Bool) :=
    if col.id < column_id then
      if col.nullable then .ok (p1, true) else .error .invalidArgument
    else if !col.nullable || !v.isNull then
      if col.varlen &&
          decide ((prev_size : Int) + v.packedSize + tail_size >
            (p1.packed_size_limit : Int)) then
        .ok (p1, false)
      else
        .ok ({ p1 with result := p1.result ++ v.packBytes }, true)
    else
      .ok (p1, true)
  match step with
  | .error e => .error e
  | .ok (p2, res) =>
    if col.varlen then
      .ok (p2.writeVarlenSlot, res)
    else if prev_size + col.size = p2.result.length then
      .ok (p2, res)
    else
      .error .corruption

/-- The `for (;;)` loop of `RowPacker::DoAddValue`.  `fuel` bounds the number
of descriptors that can still be consumed; exhausting it, like reading past
the end of the column list, models the out-of-range descriptor access the
C++ would perform in that situation (`fault`). -/
def RowPacker.doAddValueGo (column_id : Nat) (v : PackableValue)
    (tail_size : Int) : Nat → RowPacker → Except PackerError (RowPacker × Bool)
  | 0, _ => .error .fault
  | fuel + 1, p =>
    match p.packing.columns[p.idx]? with
    | none => .error .fault
    | some col =>
      if col.id > column_id then
        if p.packing.SkippedColumn column_id then .ok (p, false)
        else .error .invalidArgument
      else
        match p.consumeColumn col column_id v tail_size with
        | .error e => .error e
        | .ok (p', res) =>
          if col.id = column_id then .ok (p', res)
          else RowPacker.doAddValueGo column_id v tail_size fuel p'

/-- `RowPacker::DoAddValue`. -/
def RowPacker.DoAddValue (p : RowPacker) (column_id : Nat) (v : PackableValue)
    (tail_size : Int) : Except PackerError (RowPacker × Bool) :=
  if p.packing.columns.length ≤ p.idx then
    if p.packing.SkippedColumn column_id then .ok (p, false)
    else .error .invalidArgument
  else
    RowPacker.doAddValueGo column_id v tail_size
      (p.packing.columns.length - p.idx) p

/-- `RowPacker::AddValue(ColumnId, const Slice&, ssize_t)`. -/
def RowPacker.AddValue (p : RowPacker) (column_id : Nat) (value : List Nat)
    (tail_size : Int) : Except PackerError (RowPacker × Bool) :=
  p.DoAddValue column_id (sliceValue value) tail_size

/-- The `while (idx_ < packing_.columns())` loop of `RowPacker::Complete`:
each remaining descriptor must be nullable and is filled with a null
`AddValue(id, Slice(), 0)`.  `fuel` is the total column count, which bounds
the iterations since every successful null `AddValue` advances `idx_`. -/
def RowPacker.completeGo : Nat → RowPacker → Except PackerError RowPacker
  | 0, p =>
    if p.packing.columns.length ≤ p.idx then .ok p else .error .fault
  | fuel + 1, p =>
    if h : p.idx < p.packing.columns.length then
      let packing_data := p.packing.columns[p.idx]
      if packing_data.nullable then
        match p.AddValue packing_data.id [] 0 with
        | .error e => .error e
        | .ok (p', _) => RowPacker.completeGo fuel p'
      else .error .invalidArgument
    else .ok p

/-- `RowPacker::Complete`: fill every remaining (necessarily nullable) column
with a null, check that the offset table is fully populated
(`varlen_write_pos_ == prefix_end_`), and return the final state together
with the final bytes (`result_.AsSlice()`). -/
def RowPacker.Complete (p : RowPacker) :
    Except PackerError (RowPacker × List Nat) :=
  match RowPacker.completeGo p.packing.columns.length p with
  | .error e => .error e
  | .ok p' =>
    if p'.varlen_write_pos = p'.prefix_end then .ok (p', p'.result)
    else .error .invalidArgument

/-- Modelled from the spec: lookup in the `cdc::XClusterSchemaVersionMap`
(`FindOrNull`): the image of the first entry with the given key, if any. -/
def FindOrNull (m : List (Nat × Nat)) (key : Nat) : Option Nat :=
  (m.find? (fun e => e.1 == key)).map (fun e => e.2)

/-- `ReplaceSchemaVersionInPackedValue`.  The result pair is the returned
status and the final contents of the caller-supplied output buffer `out`;
the parameter `_out` is that buffer's prior contents, which the function
discards unconditionally (`out->Truncate(0)`) before appending the control
fields and the row-kind marker — both of which therefore sit in the buffer
already when the varint decode or the mapping lookup fails. -/
def ReplaceSchemaVersionInPackedValue (value : List Nat)
    (control_fields : List Nat) (schema_versions_map : List (Nat × Nat))
    (_out : List Nat) : Except PackerError Unit × List Nat :=
  let out := control_fields
  let out := out ++ [kPackedRow]
  match FastDecodeUnsignedVarInt value with
  | none => (.error .corruption, out)
  | some (schema_version, value_slice) =>
    match FindOrNull schema_versions_map schema_version with
    | none => (.error .notFound, out)
    | some mapped_version =>
      (.ok (), out ++ FastEncodeUnsignedVarInt mapped_version ++ value_slice)

/-- The number of variable-length descriptors in a column list. -/
def varcount (l : List ColumnPackingData) : Nat :=
  (l.filter (fun c => c.varlen)).length

/-- The packer's offset-table cursor invariant: the descriptor cursor is in
range, the reserved prefix fits in the buffer, and the offset-table write
cursor sits exactly 4 bytes past the table's start for every
variable-length descriptor among the consumed ones. -/
def OffsetInv (p : RowPacker) : Prop :=
  p.idx ≤ p.packing.columns.length ∧
  p.packing.prefix_len ≤ p.prefix_end ∧
  p.prefix_end ≤ p.result.length ∧
  p.varlen_write_pos =
    p.prefix_end - p.packing.prefix_len +
      4 * varcount (p.packing.columns.take p.idx)

/-- Two buffers of equal length that agree below `pos` and from `pe` on;
positions in `[pos, pe)` — the not-yet-written part of the offset table —
may differ. -/
def BufAgree (pos pe : Nat) (a b : List Nat) : Prop :=
  a.length = b.length ∧ (∀ k, k < pos → a[k]? = b[k]?) ∧
    (∀ k, pe ≤ k → a[k]? = b[k]?)

/-- Two packer states that agree on every component except possibly on the
buffer bytes in the still-unwritten tail of the offset table. -/
def MidEq (p q : RowPacker) : Prop :=
  p.packing = q.packing ∧ p.packed_size_limit = q.packed_size_limit ∧
  p.prefix_end = q.prefix_end ∧ p.idx = q.idx ∧
  p.varlen_write_pos = q.varlen_write_pos ∧
  BufAgree p.varlen_write_pos p.prefix_end p.result q.result

/-- One recorded `AddValue` call, for replaying a call sequence: the
supplied column id, the packable value, and the tail size. -/
structure PackCall where
  cid : Nat
  value : PackableValue
  tail : Int
deriving DecidableEq, Repr

/-- Replay a sequence of `AddValue` calls (the per-call boolean results are
reported to the caller and do not feed back into the packer). -/
def runAdds : List PackCall → RowPacker → Except PackerError RowPacker
  | [], p => .ok p
  | c :: cs, p =>
    match p.DoAddValue c.cid c.value c.tail with
    | .error e => .error e
    | .ok (p', _) => runAdds cs p'

/-- Replay a sequence of `AddValue` calls and finalize with `Complete`,
yielding the final packer state and the returned bytes. -/
def runSeq (cs : List PackCall) (p : RowPacker) :
    Except PackerError (RowPacker × List Nat) :=
  match runAdds cs p with
  | .error e => .error e
  | .ok p' => p'.Complete

instance (p : RowPacker) : Decidable (OffsetInv p) := by
  unfold OffsetInv
  infer_instance

/-- A three-column packing used for concrete checks: a non-nullable 4-byte
fixed column, a nullable variable-length column, and a non-nullable
variable-length column; column id 10 is a recognized skipped column. -/
def wPacking : SchemaPacking :=
  { columns := [{ id := 1, nullable := false, size := 4, varlen := false },
                { id := 2, nullable := true, size := 0, varlen := true },
                { id := 3, nullable := false, size := 0, varlen := true }],
    skippedColumns := [10] }

/-- A freshly initialized packer over `wPacking` (control fields `200 201`,
marker, version varint `7`, 8 reserved offset-table bytes). -/
def wPacker : RowPacker :=
  { packing := wPacking, packed_size_limit := 100,
    result := [200, 201, 33, 7, 0, 0, 0, 0, 0, 0, 0, 0],
    prefix_end := 12, varlen_write_pos := 4, idx := 0 }

/-- `wPacker` after packing the fixed column (id 1, bytes `5 5 5 5`). -/
def wVar : RowPacker :=
  { packing := wPacking, packed_size_limit := 100,
    result := [200, 201, 33, 7, 0, 0, 0, 0, 0, 0, 0, 0, 5, 5, 5, 5],
    prefix_end := 12, varlen_write_pos := 4, idx := 1 }

/-- The nullable variable-length descriptor (column id 2) of `wPacking`. -/
def wCol2 : ColumnPackingData :=
  { id := 2, nullable := true, size := 0, varlen := true }

/-- The result of consuming the nullable variable-length column (id 2,
bytes `8 8`) from `wVar`. -/
def wVarRes : RowPacker :=
  { packing := wPacking, packed_size_limit := 100,
    result := [200, 201, 33, 7, 6, 0, 0, 0, 0, 0, 0, 0, 5, 5, 5, 5, 8, 8],
    prefix_end := 12, varlen_write_pos := 8, idx := 2 }

/-- `wVar` with a size limit already close to exhausted. -/
def wOver : RowPacker := { wVar with packed_size_limit := 14 }

/-- The result of the size-limited `AddValue` of column 2 on `wOver`: the
value bytes are absent, the slot records the unchanged total 4. -/
def wOverRes : RowPacker :=
  { packing := wPacking, packed_size_limit := 14,
    result := [200, 201, 33, 7, 4, 0, 0, 0, 0, 0, 0, 0, 5, 5, 5, 5],
    prefix_end := 12, varlen_write_pos := 8, idx := 2 }

/-- The result of skipping the nullable column 2 of `wVar` as a gap while
adding column 3: zero payload bytes, slot records the unchanged total 4. -/
def wVarGap : RowPacker :=
  { packing := wPacking, packed_size_limit := 100,
    result := [200, 201, 33, 7, 4, 0, 0, 0, 0, 0, 0, 0, 5, 5, 5, 5],
    prefix_end := 12, varlen_write_pos := 8, idx := 2 }

/-- A packer over `wPacking` with every descriptor consumed. -/
def wDone : RowPacker :=
  { packing := wPacking, packed_size_limit := 100,
    result := [200, 201, 33, 7, 4, 0, 0, 0, 7, 0, 0, 0, 5, 5, 5, 5, 97, 98,
      99],
    prefix_end := 12, varlen_write_pos := 12, idx := 3 }

/-- A packer state whose descriptor cursor reports all columns consumed
while the offset-table write cursor has not reached the end of the reserved
prefix — the situation `Complete`'s final check rejects. -/
def pBad : RowPacker :=
  { packing :=
      { columns := [{ id := 1, nullable := true, size := 0, varlen := true }],
        skippedColumns := [] },
    packed_size_limit := 100,
    result := [33, 5, 0, 0, 0, 0],
    prefix_end := 6, varlen_write_pos := 2, idx := 1 }

/-- The concrete call sequence `AddValue 1 [5 5 5 5]; AddValue 3 [97 98 99]`
(column 2 left implicit). -/
def wCalls : List PackCall :=
  [{ cid := 1, value := sliceValue [5, 5, 5, 5], tail := 0 },
   { cid := 3, value := sliceValue [97, 98, 99], tail := 0 }]

/-- The non-nullable 4-byte fixed descriptor (column id 1) of `wPacking`. -/
def wCol1 : ColumnPackingData :=
  { id := 1, nullable := false, size := 4, varlen := false }

/-- The non-nullable variable-length descriptor (column id 3) of
`wPacking`. -/
def wCol3 : ColumnPackingData :=
  { id := 3, nullable := false, size := 0, varlen := true }

/-- The final bytes of the concrete run of `wCalls` from a fresh packer. -/
def wBytes : List Nat :=
  [200, 201, 33, 7, 4, 0, 0, 0, 7, 0, 0, 0, 5, 5, 5, 5, 97, 98, 99]

/-! ### Theorems -/

theorem le32_length (v : Nat) : (le32 v).length = 4 := rfl

theorem Store32_length {buf : List Nat} {pos : Nat} (v : Nat)
    (h : pos + 4 ≤ buf.length) : (Store32 buf pos v).length = buf.length := by
  simp only [Store32, List.length_append, List.length_take, le32_length,
    List.length_drop]
  omega

theorem Store32_getElem? {buf : List Nat} {pos : Nat} (v : Nat) (k : Nat)
    (h : pos + 4 ≤ buf.length) :
    (Store32 buf pos v)[k]? =
      if k < pos then buf[k]?
      else if k < pos + 4 then (le32 v)[k - pos]? else buf[k]? := by
  have hp : pos ≤ buf.length := by omega
  simp only [Store32, List.getElem?_append, List.length_append,
    List.length_take, le32_length, List.getElem?_take, List.getElem?_drop,
    Nat.min_eq_left hp]
  by_cases h1 : k < pos
  · simp [h1, show k < pos + 4 by omega]
  · by_cases h2 : k < pos + 4
    · simp [h1, h2]
    · simp only [h1, h2, if_false]
      congr 1
      omega

theorem prefix_len_eq_varcount (p : SchemaPacking) :
    p.prefix_len = 4 * varcount p.columns := rfl

theorem varcount_take_succ {l : List ColumnPackingData} {i : Nat}
    {c : ColumnPackingData} (h : l[i]? = some c) :
    varcount (l.take (i + 1)) =
      varcount (l.take i) + (if c.varlen then 1 else 0) := by
  rw [varcount, List.take_succ, h]
  simp only [Option.toList_some, List.filter_append, List.length_append]
  by_cases hc : c.varlen
  · simp [varcount, List.filter, hc]
  · simp [varcount, List.filter, hc]

theorem varcount_take_le (l : List ColumnPackingData) (i : Nat) :
    varcount (l.take i) ≤ varcount l := by
  conv_rhs => rw [← List.take_append_drop i l]
  rw [varcount, varcount, List.filter_append, List.length_append]
  exact Nat.le_add_right _ _

theorem varcount_take_lt {l : List ColumnPackingData} {i : Nat}
    {c : ColumnPackingData} (h : l[i]? = some c) (hv : c.varlen = true) :
    varcount (l.take i) < varcount l := by
  have h1 := varcount_take_succ h
  have h2 := varcount_take_le l (i + 1)
  rw [hv, if_pos rfl] at h1
  omega

theorem OffsetInv_Init (version : Nat) (packing : SchemaPacking)
    (limit : Nat) (cf : List Nat) :
    OffsetInv (RowPacker.Init version packing limit cf) := by
  unfold OffsetInv RowPacker.Init
  simp only [List.take_zero, List.length_append, List.length_replicate,
    List.length_cons, List.length_singleton]
  refine ⟨Nat.zero_le _, by omega, le_refl _, ?_⟩
  simp [varcount]

theorem OffsetInv_Restart {p : RowPacker} (h : OffsetInv p) :
    OffsetInv p.Restart := by
  obtain ⟨h1, h2, h3, h4⟩ := h
  unfold OffsetInv RowPacker.Restart
  simp only [List.take_zero, List.length_take]
  refine ⟨Nat.zero_le _, h2, by omega, ?_⟩
  simp [varcount]

theorem consumeColumn_missing_nonnullable {p : RowPacker}
    {col : ColumnPackingData} {cid : Nat} {v : PackableValue} {t : Int}
    (h1 : col.id < cid) (h2 : col.nullable = false) :
    p.consumeColumn col cid v t = .error .invalidArgument := by
  simp [RowPacker.consumeColumn, h1, h2]

theorem consumeColumn_skip_varlen {p : RowPacker} {col : ColumnPackingData}
    {cid : Nat} {v : PackableValue} {t : Int}
    (h1 : col.id < cid) (h2 : col.nullable = true) (h3 : col.varlen = true) :
    p.consumeColumn col cid v t =
      .ok (RowPacker.writeVarlenSlot { p with idx := p.idx + 1 }, true) := by
  simp [RowPacker.consumeColumn, h1, h2, h3]

theorem consumeColumn_skip_fixed {p : RowPacker} {col : ColumnPackingData}
    {cid : Nat} {v : PackableValue} {t : Int}
    (h1 : col.id < cid) (h2 : col.nullable = true) (h3 : col.varlen = false) :
    p.consumeColumn col cid v t =
      if col.size = 0 then .ok ({ p with idx := p.idx + 1 }, true)
      else .error .corruption := by
  by_cases h4 : col.size = 0
  · simp [RowPacker.consumeColumn, h1, h2, h3, h4]
  · simp only [RowPacker.consumeColumn, h1, h2, h3, if_pos, if_true, if_false]
    simp [h4]

theorem consumeColumn_match_null_varlen {p : RowPacker}
    {col : ColumnPackingData} {cid : Nat} {v : PackableValue} {t : Int}
    (h1 : ¬col.id < cid) (h2 : col.nullable = true) (h3 : v.isNull = true)
    (h4 : col.varlen = true) :
    p.consumeColumn col cid v t =
      .ok (RowPacker.writeVarlenSlot { p with idx := p.idx + 1 }, true) := by
  simp [RowPacker.consumeColumn, h1, h2, h3, h4]

theorem consumeColumn_match_null_fixed {p : RowPacker}
    {col : ColumnPackingData} {cid : Nat} {v : PackableValue} {t : Int}
    (h1 : ¬col.id < cid) (h2 : col.nullable = true) (h3 : v.isNull = true)
    (h4 : col.varlen = false) :
    p.consumeColumn col cid v t =
      if col.size = 0 then .ok ({ p with idx := p.idx + 1 }, true)
      else .error .corruption := by
  by_cases h5 : col.size = 0
  · simp [RowPacker.consumeColumn, h1, h2, h3, h4, h5]
  · simp [RowPacker.consumeColumn, h1, h2, h3, h4, h5]

theorem consumeColumn_overflow {p : RowPacker} {col : ColumnPackingData}
    {cid : Nat} {v : PackableValue} {t : Int}
    (h1 : ¬col.id < cid) (h2 : (!col.nullable || !v.isNull) = true)
    (h3 : col.varlen = true)
    (h4 : (p.result.length : Int) + v.packedSize + t >
      (p.packed_size_limit : Int)) :
    p.consumeColumn col cid v t =
      .ok (RowPacker.writeVarlenSlot { p with idx := p.idx + 1 }, false) := by
  simp [RowPacker.consumeColumn, h1, h2, h3, h4]

theorem consumeColumn_pack_varlen {p : RowPacker} {col : ColumnPackingData}
    {cid : Nat} {v : PackableValue} {t : Int}
    (h1 : ¬col.id < cid) (h2 : (!col.nullable || !v.isNull) = true)
    (h3 : col.varlen = true)
    (h4 : ¬((p.result.length : Int) + v.packedSize + t >
      (p.packed_size_limit : Int))) :
    p.consumeColumn col cid v t =
      .ok (RowPacker.writeVarlenSlot
        { p with idx := p.idx + 1, result := p.result ++ v.packBytes },
        true) := by
  simp [RowPacker.consumeColumn, h1, h2, h3, h4]

theorem consumeColumn_pack_fixed {p : RowPacker} {col : ColumnPackingData}
    {cid : Nat} {v : PackableValue} {t : Int}
    (h1 : ¬col.id < cid) (h2 : (!col.nullable || !v.isNull) = true)
    (h3 : col.varlen = false) :
    p.consumeColumn col cid v t =
      if col.size = v.packBytes.length then
        .ok ({ p with idx := p.idx + 1, result := p.result ++ v.packBytes },
          true)
      else .error .corruption := by
  by_cases h4 : col.size = v.packBytes.length
  · simp [RowPacker.consumeColumn, h1, h2, h3, h4]
  · simp only [RowPacker.consumeColumn, h1, h2, h3]
    simp [h4]

theorem BufAgree.eq {pe : Nat} {a b : List Nat} (h : BufAgree pe pe a b) :
    a = b := by
  obtain ⟨_, h2, h3⟩ := h
  refine List.ext_getElem? fun k => ?_
  by_cases hk : k < pe
  · exact h2 k hk
  · exact h3 k (by omega)

theorem BufAgree.append {pos pe : Nat} {a b : List Nat}
    (h : BufAgree pos pe a b) (hpos : pos ≤ a.length) (l : List Nat) :
    BufAgree pos pe (a ++ l) (b ++ l) := by
  obtain ⟨h1, h2, h3⟩ := h
  refine ⟨by simp [h1], ?_, ?_⟩
  · intro k hk
    have hka : k < a.length := lt_of_lt_of_le hk hpos
    rw [List.getElem?_append, List.getElem?_append, if_pos hka,
      if_pos (h1 ▸ hka)]
    exact h2 k hk
  · intro k hk
    by_cases hka : k < a.length
    · rw [List.getElem?_append, List.getElem?_append, if_pos hka,
        if_pos (h1 ▸ hka)]
      exact h3 k hk
    · rw [List.getElem?_append, List.getElem?_append, if_neg hka,
        if_neg (h1 ▸ hka), h1]

theorem BufAgree.store {pos pe : Nat} {a b : List Nat}
    (h : BufAgree pos pe a b) (hpe : pos + 4 ≤ pe) (hlen : pe ≤ a.length)
    (v : Nat) :
    BufAgree (pos + 4) pe (Store32 a pos v) (Store32 b pos v) := by
  obtain ⟨h1, h2, h3⟩ := h
  have ha : pos + 4 ≤ a.length := le_trans hpe hlen
  have hb : pos + 4 ≤ b.length := h1 ▸ ha
  refine ⟨by rw [Store32_length v ha, Store32_length v hb, h1], ?_, ?_⟩
  · intro k hk
    rw [Store32_getElem? v k ha, Store32_getElem? v k hb]
    by_cases hk1 : k < pos
    · rw [if_pos hk1, if_pos hk1]
      exact h2 k hk1
    · rw [if_neg hk1, if_neg hk1, if_pos (by omega), if_pos (by omega)]
  · intro k hk
    rw [Store32_getElem? v k ha, Store32_getElem? v k hb,
      if_neg (by omega), if_neg (by omega), if_neg (by omega),
      if_neg (by omega)]
    exact h3 k hk

theorem getElem?_some_lt {α : Type} {l : List α} {i : Nat} {c : α}
    (h : l[i]? = some c) : i < l.length := by
  by_contra hc
  rw [List.getElem?_eq_none (by omega)] at h
  simp at h

theorem pos_le_prefix_end {p : RowPacker} (hinv : OffsetInv p) :
    p.varlen_write_pos ≤ p.prefix_end := by
  obtain ⟨h1, h2, h3, h4⟩ := hinv
  have h5 := varcount_take_le p.packing.columns p.idx
  rw [prefix_len_eq_varcount] at h2 h4
  omega

theorem pos_add_four_le {p : RowPacker} {col : ColumnPackingData}
    (hinv : OffsetInv p) (hcol : p.packing.columns[p.idx]? = some col)
    (hv : col.varlen = true) : p.varlen_write_pos + 4 ≤ p.prefix_end := by
  obtain ⟨h1, h2, h3, h4⟩ := hinv
  have h5 := varcount_take_lt hcol hv
  rw [prefix_len_eq_varcount] at h2 h4
  omega

theorem OffsetInv_bump {p p' : RowPacker} {col : ColumnPackingData}
    (hinv : OffsetInv p) (hcol : p.packing.columns[p.idx]? = some col)
    (hpk : p'.packing = p.packing) (hpe : p'.prefix_end = p.prefix_end)
    (hidx : p'.idx = p.idx + 1)
    (hlen : p.prefix_end ≤ p'.result.length)
    (hpos : p'.varlen_write_pos =
      p.varlen_write_pos + (if col.varlen then 4 else 0)) :
    OffsetInv p' := by
  obtain ⟨h1, h2, h3, h4⟩ := hinv
  have hidxlt : p.idx < p.packing.columns.length := getElem?_some_lt hcol
  refine ⟨by rw [hidx, hpk]; omega, by rw [hpk, hpe]; exact h2,
    by rw [hpe]; exact hlen, ?_⟩
  rw [hpos, hidx, hpk, hpe, h4, varcount_take_succ hcol]
  cases hv : col.varlen
  · simp
  · simp only [if_true]
    omega

theorem writeVarlenSlot_facts (p pm : RowPacker) (ap : List Nat)
    (hpm : pm.result = p.result ++ ap)
    (hpmpos : pm.varlen_write_pos = p.varlen_write_pos)
    (hpmpe : pm.prefix_end = p.prefix_end)
    (hpos4 : p.varlen_write_pos + 4 ≤ p.prefix_end)
    (hpe : p.prefix_end ≤ p.result.length) :
    pm.writeVarlenSlot.result.length = p.result.length + ap.length ∧
    pm.writeVarlenSlot.varlen_write_pos = p.varlen_write_pos + 4 ∧
    pm.writeVarlenSlot.idx = pm.idx ∧
    pm.writeVarlenSlot.packing = pm.packing ∧
    pm.writeVarlenSlot.prefix_end = p.prefix_end ∧
    pm.writeVarlenSlot.packed_size_limit = pm.packed_size_limit ∧
    (∀ k, k < p.varlen_write_pos ∨
        (p.varlen_write_pos + 4 ≤ k ∧ k < p.prefix_end) →
      pm.writeVarlenSlot.result[k]? = p.result[k]?) ∧
    (∀ i, i < 4 → pm.writeVarlenSlot.result[p.varlen_write_pos + i]? =
      (le32 (p.result.length + ap.length - p.prefix_end))[i]?) ∧
    (∀ k, p.prefix_end ≤ k →
      pm.writeVarlenSlot.result[k]? = (p.result ++ ap)[k]?) := by
  have hmidlen : pm.result.length = p.result.length + ap.length := by
    rw [hpm]; simp
  have hb : pm.varlen_write_pos + 4 ≤ pm.result.length := by
    rw [hpmpos, hmidlen]; omega
  have hval : pm.result.length - pm.prefix_end =
      p.result.length + ap.length - p.prefix_end := by
    rw [hmidlen, hpmpe]
  refine ⟨?_, ?_, rfl, rfl, ?_, rfl, ?_, ?_, ?_⟩
  · show (Store32 pm.result pm.varlen_write_pos _).length = _
    rw [Store32_length _ hb, hmidlen]
  · show pm.varlen_write_pos + 4 = _
    rw [hpmpos]
  · exact hpmpe
  · intro k hk
    show (Store32 pm.result pm.varlen_write_pos _)[k]? = _
    rw [Store32_getElem? _ k hb, hpmpos]
    rcases hk with hk | hk
    · rw [if_pos hk, hpm, List.getElem?_append, if_pos (by omega)]
    · rw [if_neg (by omega), if_neg (by omega), hpm, List.getElem?_append,
        if_pos (by omega)]
  · intro i hi
    show (Store32 pm.result pm.varlen_write_pos _)[_]? = _
    rw [Store32_getElem? _ _ hb, hpmpos, if_neg (by omega), if_pos (by omega),
      hval]
    congr 1
    omega
  · intro k hk
    show (Store32 pm.result pm.varlen_write_pos _)[k]? = _
    rw [Store32_getElem? _ k hb, hpmpos, if_neg (by omega), if_neg (by omega),
      hpm]

theorem consume_varlen_leaf {p p' : RowPacker} {col : ColumnPackingData}
    {ap : List Nat}
    (hinv : OffsetInv p) (hcol : p.packing.columns[p.idx]? = some col)
    (hv : col.varlen = true)
    (hp' : p' = RowPacker.writeVarlenSlot
      { p with idx := p.idx + 1, result := p.result ++ ap }) :
    OffsetInv p' ∧ p'.idx = p.idx + 1 ∧ p'.packing = p.packing ∧
    p'.packed_size_limit = p.packed_size_limit ∧
    p'.prefix_end = p.prefix_end ∧
    p.result.length ≤ p'.result.length ∧
    p'.varlen_write_pos = p.varlen_write_pos + (if col.varlen then 4 else 0) ∧
    (∀ k, k < p.varlen_write_pos ∨
        (p.varlen_write_pos + 4 ≤ k ∧ k < p.prefix_end) →
      p'.result[k]? = p.result[k]?) ∧
    (col.varlen = true → ∀ i, i < 4 →
      p'.result[p.varlen_write_pos + i]? =
        (le32 (p'.result.length - p.prefix_end))[i]?) ∧
    (col.varlen = false → ∀ k, k < p.prefix_end →
      p'.result[k]? = p.result[k]?) := by
  subst hp'
  have hpe := hinv.2.2.1
  have h4 := pos_add_four_le hinv hcol hv
  obtain ⟨f1, f2, f3, f4, f5, f6, f7, f8, f9⟩ :=
    writeVarlenSlot_facts p
      { p with idx := p.idx + 1, result := p.result ++ ap } ap
      rfl rfl rfl h4 hpe
  refine ⟨OffsetInv_bump hinv hcol f4 f5 f3 (by omega) (by rw [f2, hv]; simp),
    f3, f4, f6, f5, by omega, by rw [f2, hv]; simp, f7, ?_, ?_⟩
  · intro _ i hi
    rw [f1]
    exact f8 i hi
  · intro hf
    exact absurd (hv.symm.trans hf) (by decide)

theorem consume_fixed_leaf {p p' : RowPacker} {col : ColumnPackingData}
    {ap : List Nat}
    (hinv : OffsetInv p) (hcol : p.packing.columns[p.idx]? = some col)
    (hv : col.varlen = false)
    (hp' : p' = { p with idx := p.idx + 1, result := p.result ++ ap }) :
    OffsetInv p' ∧ p'.idx = p.idx + 1 ∧ p'.packing = p.packing ∧
    p'.packed_size_limit = p.packed_size_limit ∧
    p'.prefix_end = p.prefix_end ∧
    p.result.length ≤ p'.result.length ∧
    p'.varlen_write_pos = p.varlen_write_pos + (if col.varlen then 4 else 0) ∧
    (∀ k, k < p.varlen_write_pos ∨
        (p.varlen_write_pos + 4 ≤ k ∧ k < p.prefix_end) →
      p'.result[k]? = p.result[k]?) ∧
    (col.varlen = true → ∀ i, i < 4 →
      p'.result[p.varlen_write_pos + i]? =
        (le32 (p'.result.length - p.prefix_end))[i]?) ∧
    (col.varlen = false → ∀ k, k < p.prefix_end →
      p'.result[k]? = p.result[k]?) := by
  subst hp'
  have hpe := hinv.2.2.1
  have hposle := pos_le_prefix_end hinv
  refine ⟨OffsetInv_bump hinv hcol rfl rfl rfl
      (by simp only [List.length_append]; omega) (by rw [hv]; simp),
    rfl, rfl, rfl, rfl, by simp, by rw [hv]; simp, ?_, ?_, ?_⟩
  · intro k hk
    show (p.result ++ ap)[k]? = p.result[k]?
    rw [List.getElem?_append, if_pos (by omega)]
  · intro ht
    exact absurd (hv.symm.trans ht) (by decide)
  · intro _ k hk
    show (p.result ++ ap)[k]? = p.result[k]?
    rw [List.getElem?_append, if_pos (by omega)]

theorem bool_eq_false_or_true (b : Bool) : b = false ∨ b = true := by
  cases b
  · exact Or.inl rfl
  · exact Or.inr rfl

/-- Combined step facts for a successful `consumeColumn`: the cursor
invariant is preserved, exactly one descriptor is consumed, the identifying
fields survive, the buffer only grows, the offset-table write cursor
advances by 4 exactly for a variable-length column, and no byte below the
old write cursor nor in the rest of the offset table changes. -/
theorem consumeColumn_facts {p : RowPacker} {col : ColumnPackingData}
    {cid : Nat} {v : PackableValue} {t : Int} {p' : RowPacker} {b : Bool}
    (hinv : OffsetInv p) (hcol : p.packing.columns[p.idx]? = some col)
    (hok : p.consumeColumn col cid v t = .ok (p', b)) :
    OffsetInv p' ∧ p'.idx = p.idx + 1 ∧ p'.packing = p.packing ∧
    p'.packed_size_limit = p.packed_size_limit ∧
    p'.prefix_end = p.prefix_end ∧
    p.result.length ≤ p'.result.length ∧
    p'.varlen_write_pos = p.varlen_write_pos + (if col.varlen then 4 else 0) ∧
    (∀ k, k < p.varlen_write_pos ∨
        (p.varlen_write_pos + 4 ≤ k ∧ k < p.prefix_end) →
      p'.result[k]? = p.result[k]?) ∧
    (col.varlen = true → ∀ i, i < 4 →
      p'.result[p.varlen_write_pos + i]? =
        (le32 (p'.result.length - p.prefix_end))[i]?) ∧
    (col.varlen = false → ∀ k, k < p.prefix_end →
      p'.result[k]? = p.result[k]?) := by
  have hbridge : ({ p with idx := p.idx + 1 } : RowPacker) =
      { p with idx := p.idx + 1, result := p.result ++ [] } := by simp
  by_cases hlt : col.id < cid
  · cases hn : col.nullable
    · rw [consumeColumn_missing_nonnullable hlt hn] at hok
      cases hok
    · rcases bool_eq_false_or_true col.varlen with hv | hv
      · rw [consumeColumn_skip_fixed hlt hn hv] at hok
        by_cases hz : col.size = 0
        · rw [if_pos hz] at hok
          injection hok with h
          injection h with h1 h2
          exact consume_fixed_leaf hinv hcol hv (h1.symm.trans hbridge)
        · rw [if_neg hz] at hok
          cases hok
      · rw [consumeColumn_skip_varlen hlt hn hv] at hok
        injection hok with h
        injection h with h1 h2
        exact consume_varlen_leaf hinv hcol hv (h1.symm.trans (congrArg RowPacker.writeVarlenSlot hbridge))
  · cases hnv : (!col.nullable || !v.isNull)
    · have hn : col.nullable = true := by
        cases hcn : col.nullable
        · rw [hcn] at hnv; simp at hnv
        · rfl
      have hz : v.isNull = true := by
        cases hcz : v.isNull
        · rw [hcz, hn] at hnv; simp at hnv
        · rfl
      rcases bool_eq_false_or_true col.varlen with hv | hv
      · rw [consumeColumn_match_null_fixed hlt hn hz hv] at hok
        by_cases hz0 : col.size = 0
        · rw [if_pos hz0] at hok
          injection hok with h
          injection h with h1 h2
          exact consume_fixed_leaf hinv hcol hv (h1.symm.trans hbridge)
        · rw [if_neg hz0] at hok
          cases hok
      · rw [consumeColumn_match_null_varlen hlt hn hz hv] at hok
        injection hok with h
        injection h with h1 h2
        exact consume_varlen_leaf hinv hcol hv (h1.symm.trans (congrArg RowPacker.writeVarlenSlot hbridge))
    · rcases bool_eq_false_or_true col.varlen with hv | hv
      · rw [consumeColumn_pack_fixed hlt hnv hv] at hok
        by_cases hsz : col.size = v.packBytes.length
        · rw [if_pos hsz] at hok
          injection hok with h
          injection h with h1 h2
          exact consume_fixed_leaf hinv hcol hv h1.symm
        · rw [if_neg hsz] at hok
          cases hok
      · by_cases hov : (p.result.length : Int) + v.packedSize + t >
            (p.packed_size_limit : Int)
        · rw [consumeColumn_overflow hlt hnv hv hov] at hok
          injection hok with h
          injection h with h1 h2
          exact consume_varlen_leaf hinv hcol hv (h1.symm.trans (congrArg RowPacker.writeVarlenSlot hbridge))
        · rw [consumeColumn_pack_varlen hlt hnv hv hov] at hok
          injection hok with h
          injection h with h1 h2
          exact consume_varlen_leaf hinv hcol hv h1.symm

theorem consume_append_mid {p q p' q' : RowPacker} (hR : MidEq p q)
    (hposlen : p.varlen_write_pos ≤ p.result.length) (ap : List Nat)
    (hp' : p' = { p with idx := p.idx + 1, result := p.result ++ ap })
    (hq' : q' = { q with idx := q.idx + 1, result := q.result ++ ap }) :
    MidEq p' q' := by
  subst hp'
  subst hq'
  obtain ⟨e1, e2, e3, e4, e5, hBA⟩ := hR
  exact ⟨e1, e2, e3, by simp [e4], e5, hBA.append hposlen ap⟩

theorem writeVarlenSlot_mid {p q p' q' : RowPacker} (hR : MidEq p q)
    (hpos4 : p.varlen_write_pos + 4 ≤ p.prefix_end)
    (hpe : p.prefix_end ≤ p.result.length) (ap : List Nat)
    (hp' : p' = RowPacker.writeVarlenSlot
      { p with idx := p.idx + 1, result := p.result ++ ap })
    (hq' : q' = RowPacker.writeVarlenSlot
      { q with idx := q.idx + 1, result := q.result ++ ap }) :
    MidEq p' q' := by
  subst hp'
  subst hq'
  obtain ⟨e1, e2, e3, e4, e5, hBA⟩ := hR
  have hlen := hBA.1
  have hposlen : p.varlen_write_pos ≤ p.result.length := by omega
  have base : BufAgree p.varlen_write_pos p.prefix_end
      (p.result ++ ap) (q.result ++ ap) := hBA.append hposlen ap
  have hstore := base.store hpos4
    (by simp only [List.length_append]; omega)
    ((p.result ++ ap).length - p.prefix_end)
  refine ⟨e1, e2, e3, by simp [RowPacker.writeVarlenSlot, e4],
    by simp [RowPacker.writeVarlenSlot, e5], ?_⟩
  show BufAgree (p.varlen_write_pos + 4) p.prefix_end
    (Store32 (p.result ++ ap) p.varlen_write_pos
      ((p.result ++ ap).length - p.prefix_end))
    (Store32 (q.result ++ ap) q.varlen_write_pos
      ((q.result ++ ap).length - q.prefix_end))
  have hval : (q.result ++ ap).length - q.prefix_end =
      (p.result ++ ap).length - p.prefix_end := by
    simp only [List.length_append]
    rw [← hlen, ← e3]
  rw [hval, ← e5]
  exact hstore

/-- Simulation: a successful `consumeColumn` step from `p` is matched, with
the same returned flag, by any state `q` that agrees with `p` outside the
unwritten offset-table tail, and the two results again so agree. -/
theorem consumeColumn_sim {p q : RowPacker} {col : ColumnPackingData}
    {cid : Nat} {v : PackableValue} {t : Int} {p' : RowPacker} {b : Bool}
    (hinv : OffsetInv p) (hcol : p.packing.columns[p.idx]? = some col)
    (hR : MidEq p q)
    (hok : p.consumeColumn col cid v t = .ok (p', b)) :
    ∃ q', q.consumeColumn col cid v t = .ok (q', b) ∧ MidEq p' q' := by
  have hpe := hinv.2.2.1
  have hposle := pos_le_prefix_end hinv
  have hposlen : p.varlen_write_pos ≤ p.result.length := le_trans hposle hpe
  obtain ⟨e1, e2, e3, e4, e5, hBA⟩ := hR
  have hR' : MidEq p q := ⟨e1, e2, e3, e4, e5, hBA⟩
  have hlen := hBA.1
  have hbridge : ({ p with idx := p.idx + 1 } : RowPacker) =
      { p with idx := p.idx + 1, result := p.result ++ [] } := by simp
  have hbridgeq : ({ q with idx := q.idx + 1 } : RowPacker) =
      { q with idx := q.idx + 1, result := q.result ++ [] } := by simp
  by_cases hlt : col.id < cid
  · cases hn : col.nullable
    · rw [consumeColumn_missing_nonnullable hlt hn] at hok
      cases hok
    · rcases bool_eq_false_or_true col.varlen with hv | hv
      · rw [consumeColumn_skip_fixed hlt hn hv] at hok
        by_cases hz : col.size = 0
        · rw [if_pos hz] at hok
          injection hok with h
          injection h with h1 h2
          subst h2
          refine ⟨{ q with idx := q.idx + 1 }, ?_, ?_⟩
          · rw [consumeColumn_skip_fixed hlt hn hv, if_pos hz]
          · exact consume_append_mid hR' hposlen []
              (h1.symm.trans hbridge) hbridgeq
        · rw [if_neg hz] at hok
          cases hok
      · rw [consumeColumn_skip_varlen hlt hn hv] at hok
        injection hok with h
        injection h with h1 h2
        subst h2
        refine ⟨RowPacker.writeVarlenSlot { q with idx := q.idx + 1 }, ?_, ?_⟩
        · rw [consumeColumn_skip_varlen hlt hn hv]
        · exact writeVarlenSlot_mid hR' (pos_add_four_le hinv hcol hv) hpe []
            (h1.symm.trans (congrArg RowPacker.writeVarlenSlot hbridge))
            (congrArg RowPacker.writeVarlenSlot hbridgeq)
  · cases hnv : (!col.nullable || !v.isNull)
    · have hn : col.nullable = true := by
        cases hcn : col.nullable
        · rw [hcn] at hnv; simp at hnv
        · rfl
      have hz : v.isNull = true := by
        cases hcz : v.isNull
        · rw [hcz, hn] at hnv; simp at hnv
        · rfl
      rcases bool_eq_false_or_true col.varlen with hv | hv
      · rw [consumeColumn_match_null_fixed hlt hn hz hv] at hok
        by_cases hz0 : col.size = 0
        · rw [if_pos hz0] at hok
          injection hok with h
          injection h with h1 h2
          subst h2
          refine ⟨{ q with idx := q.idx + 1 }, ?_, ?_⟩
          · rw [consumeColumn_match_null_fixed hlt hn hz hv, if_pos hz0]
          · exact consume_append_mid hR' hposlen []
              (h1.symm.trans hbridge) hbridgeq
        · rw [if_neg hz0] at hok
          cases hok
      · rw [consumeColumn_match_null_varlen hlt hn hz hv] at hok
        injection hok with h
        injection h with h1 h2
        subst h2
        refine ⟨RowPacker.writeVarlenSlot { q with idx := q.idx + 1 }, ?_, ?_⟩
        · rw [consumeColumn_match_null_varlen hlt hn hz hv]
        · exact writeVarlenSlot_mid hR' (pos_add_four_le hinv hcol hv) hpe []
            (h1.symm.trans (congrArg RowPacker.writeVarlenSlot hbridge))
            (congrArg RowPacker.writeVarlenSlot hbridgeq)
    · rcases bool_eq_false_or_true col.varlen with hv | hv
      · rw [consumeColumn_pack_fixed hlt hnv hv] at hok
        by_cases hsz : col.size = v.packBytes.length
        · rw [if_pos hsz] at hok
          injection hok with h
          injection h with h1 h2
          subst h2
          refine ⟨{ q with idx := q.idx + 1, result := q.result ++ v.packBytes }, ?_, ?_⟩
          · rw [consumeColumn_pack_fixed hlt hnv hv, if_pos hsz]
          · exact consume_append_mid hR' hposlen v.packBytes h1.symm rfl
        · rw [if_neg hsz] at hok
          cases hok
      · by_cases hov : (p.result.length : Int) + v.packedSize + t >
            (p.packed_size_limit : Int)
        · rw [consumeColumn_overflow hlt hnv hv hov] at hok
          injection hok with h
          injection h with h1 h2
          subst h2
          have hovq : (q.result.length : Int) + v.packedSize + t >
              (q.packed_size_limit : Int) := by
            rw [← hlen, ← e2]
            exact hov
          refine ⟨RowPacker.writeVarlenSlot { q with idx := q.idx + 1 }, ?_, ?_⟩
          · rw [consumeColumn_overflow hlt hnv hv hovq]
          · exact writeVarlenSlot_mid hR' (pos_add_four_le hinv hcol hv) hpe []
              (h1.symm.trans (congrArg RowPacker.writeVarlenSlot hbridge))
              (congrArg RowPacker.writeVarlenSlot hbridgeq)
        · rw [consumeColumn_pack_varlen hlt hnv hv hov] at hok
          injection hok with h
          injection h with h1 h2
          subst h2
          have hovq : ¬((q.result.length : Int) + v.packedSize + t >
              (q.packed_size_limit : Int)) := by
            rw [← hlen, ← e2]
            exact hov
          refine ⟨RowPacker.writeVarlenSlot { q with idx := q.idx + 1, result := q.result ++ v.packBytes }, ?_, ?_⟩
          · rw [consumeColumn_pack_varlen hlt hnv hv hovq]
          · exact writeVarlenSlot_mid hR' (pos_add_four_le hinv hcol hv) hpe
              v.packBytes h1.symm rfl

theorem doAddValueGo_none {cid : Nat} {v : PackableValue} {t : Int}
    {fuel : Nat} {p : RowPacker}
    (hcol : p.packing.columns[p.idx]? = none) :
    RowPacker.doAddValueGo cid v t (fuel + 1) p = .error .fault := by
  simp only [RowPacker.doAddValueGo, hcol]

theorem doAddValueGo_succ {cid : Nat} {v : PackableValue} {t : Int}
    {fuel : Nat} {p : RowPacker} {col : ColumnPackingData}
    (hcol : p.packing.columns[p.idx]? = some col) :
    RowPacker.doAddValueGo cid v t (fuel + 1) p =
      if col.id > cid then
        (if p.packing.SkippedColumn cid then .ok (p, false)
         else .error .invalidArgument)
      else
        match p.consumeColumn col cid v t with
        | .error e => .error e
        | .ok (p', res) =>
          if col.id = cid then .ok (p', res)
          else RowPacker.doAddValueGo cid v t fuel p' := by
  simp only [RowPacker.doAddValueGo, hcol]

theorem doAddValueGo_facts {cid : Nat} {v : PackableValue} {t : Int} :
    ∀ (fuel : Nat) (p p' : RowPacker) (b : Bool), OffsetInv p →
    RowPacker.doAddValueGo cid v t fuel p = .ok (p', b) →
    OffsetInv p' ∧ p.idx ≤ p'.idx ∧ p'.packing = p.packing ∧
    p'.packed_size_limit = p.packed_size_limit ∧
    p'.prefix_end = p.prefix_end ∧
    p.result.length ≤ p'.result.length ∧
    p.varlen_write_pos ≤ p'.varlen_write_pos ∧
    (∀ k, k < p.varlen_write_pos → p'.result[k]? = p.result[k]?)
  | 0, p, p', b, hinv, hok => by cases hok
  | fuel + 1, p, p', b, hinv, hok => by
    cases hcol : p.packing.columns[p.idx]? with
    | none =>
      rw [doAddValueGo_none hcol] at hok
      cases hok
    | some col =>
      rw [doAddValueGo_succ hcol] at hok
      by_cases hgt : col.id > cid
      · rw [if_pos hgt] at hok
        cases hsk : p.packing.SkippedColumn cid
        · rw [hsk] at hok
          simp only [Bool.false_eq_true, if_false] at hok
          cases hok
        · rw [hsk] at hok
          simp only [if_true] at hok
          injection hok with h
          injection h with h1 h2
          subst h1
          exact ⟨hinv, le_refl _, rfl, rfl, rfl, le_refl _, le_refl _,
            fun k _ => rfl⟩
      · rw [if_neg hgt] at hok
        cases hcc : p.consumeColumn col cid v t with
        | error e =>
          rw [hcc] at hok
          cases hok
        | ok pr =>
          obtain ⟨pm, res⟩ := pr
          rw [hcc] at hok
          simp only [] at hok
          obtain ⟨f1, f2, f3, f4, f5, f6, f7, f8, f9, f10⟩ :=
            consumeColumn_facts hinv hcol hcc
          by_cases hid : col.id = cid
          · rw [if_pos hid] at hok
            injection hok with h
            injection h with h1 h2
            subst h1
            refine ⟨f1, by omega, f3, f4, f5, f6, by omega, ?_⟩
            intro k hk
            exact f8 k (Or.inl hk)
          · rw [if_neg hid] at hok
            obtain ⟨g1, g2, g3, g4, g5, g6, g7, g8⟩ :=
              doAddValueGo_facts fuel pm p' b f1 hok
            refine ⟨g1, by omega, g3.trans f3, g4.trans f4, g5.trans f5,
              le_trans f6 g6, by omega, ?_⟩
            intro k hk
            rw [g8 k (by omega)]
            exact f8 k (Or.inl hk)

theorem doAddValueGo_sim {cid : Nat} {v : PackableValue} {t : Int} :
    ∀ (fuel : Nat) (p q p' : RowPacker) (b : Bool), OffsetInv p → MidEq p q →
    RowPacker.doAddValueGo cid v t fuel p = .ok (p', b) →
    ∃ q', RowPacker.doAddValueGo cid v t fuel q = .ok (q', b) ∧ MidEq p' q'
  | 0, p, q, p', b, hinv, hR, hok => by cases hok
  | fuel + 1, p, q, p', b, hinv, hR, hok => by
    obtain ⟨e1, e2, e3, e4, e5, hBA⟩ := hR
    have hR' : MidEq p q := ⟨e1, e2, e3, e4, e5, hBA⟩
    cases hcol : p.packing.columns[p.idx]? with
    | none =>
      rw [doAddValueGo_none hcol] at hok
      cases hok
    | some col =>
      have hcolq : q.packing.columns[q.idx]? = some col := by
        rw [← e1, ← e4]
        exact hcol
      rw [doAddValueGo_succ hcol] at hok
      by_cases hgt : col.id > cid
      · rw [if_pos hgt] at hok
        cases hsk : p.packing.SkippedColumn cid
        · rw [hsk] at hok
          simp only [Bool.false_eq_true, if_false] at hok
          cases hok
        · rw [hsk] at hok
          simp only [if_true] at hok
          injection hok with h
          injection h with h1 h2
          subst h1
          subst h2
          refine ⟨q, ?_, hR'⟩
          rw [doAddValueGo_succ hcolq, if_pos hgt, ← e1, hsk]
          simp only [if_true]
      · rw [if_neg hgt] at hok
        cases hcc : p.consumeColumn col cid v t with
        | error e =>
          rw [hcc] at hok
          cases hok
        | ok pr =>
          obtain ⟨pm, res⟩ := pr
          rw [hcc] at hok
          simp only [] at hok
          obtain ⟨qm, hccq, hmid⟩ := consumeColumn_sim hinv hcol hR' hcc
          have hfacts := consumeColumn_facts hinv hcol hcc
          by_cases hid : col.id = cid
          · rw [if_pos hid] at hok
            injection hok with h
            injection h with h1 h2
            subst h1
            subst h2
            refine ⟨qm, ?_, hmid⟩
            rw [doAddValueGo_succ hcolq, if_neg hgt, hccq]
            simp only []
            rw [if_pos hid]
          · rw [if_neg hid] at hok
            obtain ⟨q', hq', hmid'⟩ :=
              doAddValueGo_sim fuel pm qm p' b hfacts.1 hmid hok
            refine ⟨q', ?_, hmid'⟩
            rw [doAddValueGo_succ hcolq, if_neg hgt, hccq]
            simp only []
            rw [if_neg hid]
            exact hq'

theorem DoAddValue_facts {p p' : RowPacker} {cid : Nat} {v : PackableValue}
    {t : Int} {b : Bool} (hinv : OffsetInv p)
    (hok : p.DoAddValue cid v t = .ok (p', b)) :
    OffsetInv p' ∧ p.idx ≤ p'.idx ∧ p'.packing = p.packing ∧
    p'.packed_size_limit = p.packed_size_limit ∧
    p'.prefix_end = p.prefix_end ∧
    p.result.length ≤ p'.result.length ∧
    p.varlen_write_pos ≤ p'.varlen_write_pos ∧
    (∀ k, k < p.varlen_write_pos → p'.result[k]? = p.result[k]?) := by
  rw [RowPacker.DoAddValue] at hok
  by_cases hge : p.packing.columns.length ≤ p.idx
  · rw [if_pos hge] at hok
    cases hsk : p.packing.SkippedColumn cid
    · rw [hsk] at hok
      simp only [Bool.false_eq_true, if_false] at hok
      cases hok
    · rw [hsk] at hok
      simp only [if_true] at hok
      injection hok with h
      injection h with h1 h2
      subst h1
      exact ⟨hinv, le_refl _, rfl, rfl, rfl, le_refl _, le_refl _,
        fun k _ => rfl⟩
  · rw [if_neg hge] at hok
    exact doAddValueGo_facts _ p p' b hinv hok

theorem DoAddValue_sim {p q p' : RowPacker} {cid : Nat} {v : PackableValue}
    {t : Int} {b : Bool} (hinv : OffsetInv p) (hR : MidEq p q)
    (hok : p.DoAddValue cid v t = .ok (p', b)) :
    ∃ q', q.DoAddValue cid v t = .ok (q', b) ∧ MidEq p' q' := by
  obtain ⟨e1, e2, e3, e4, e5, hBA⟩ := hR
  have hR' : MidEq p q := ⟨e1, e2, e3, e4, e5, hBA⟩
  rw [RowPacker.DoAddValue] at hok
  by_cases hge : p.packing.columns.length ≤ p.idx
  · rw [if_pos hge] at hok
    cases hsk : p.packing.SkippedColumn cid
    · rw [hsk] at hok
      simp only [Bool.false_eq_true, if_false] at hok
      cases hok
    · rw [hsk] at hok
      simp only [if_true] at hok
      injection hok with h
      injection h with h1 h2
      subst h1
      subst h2
      refine ⟨q, ?_, hR'⟩
      rw [RowPacker.DoAddValue, if_pos (by rw [← e1, ← e4]; exact hge),
        ← e1, hsk]
      simp only [if_true]
  · rw [if_neg hge] at hok
    obtain ⟨q', hq', hmid⟩ :=
      doAddValueGo_sim (p.packing.columns.length - p.idx) p q p' b hinv
        hR' hok
    refine ⟨q', ?_, hmid⟩
    rw [RowPacker.DoAddValue, if_neg (by rw [← e1, ← e4]; exact hge),
      ← e1, ← e4]
    exact hq'

theorem completeGo_facts :
    ∀ (fuel : Nat) (p p' : RowPacker), OffsetInv p →
    RowPacker.completeGo fuel p = .ok p' →
    OffsetInv p' ∧ p'.packing.columns.length ≤ p'.idx ∧
    p.idx ≤ p'.idx ∧ p'.packing = p.packing ∧
    p'.packed_size_limit = p.packed_size_limit ∧
    p'.prefix_end = p.prefix_end ∧
    p.result.length ≤ p'.result.length ∧
    p.varlen_write_pos ≤ p'.varlen_write_pos ∧
    (∀ k, k < p.varlen_write_pos → p'.result[k]? = p.result[k]?)
  | 0, p, p', hinv, hok => by
    rw [RowPacker.completeGo] at hok
    by_cases hge : p.packing.columns.length ≤ p.idx
    · rw [if_pos hge] at hok
      injection hok with h1
      subst h1
      exact ⟨hinv, hge, le_refl _, rfl, rfl, rfl, le_refl _, le_refl _,
        fun k _ => rfl⟩
    · rw [if_neg hge] at hok
      cases hok
  | fuel + 1, p, p', hinv, hok => by
    rw [RowPacker.completeGo] at hok
    by_cases h : p.idx < p.packing.columns.length
    · rw [dif_pos h] at hok
      simp only [] at hok
      cases hn : (p.packing.columns[p.idx]).nullable
      · rw [hn] at hok
        simp only [Bool.false_eq_true, if_false] at hok
        cases hok
      · rw [hn] at hok
        simp only [if_true] at hok
        cases hadd : p.AddValue (p.packing.columns[p.idx]).id [] 0 with
        | error e =>
          rw [hadd] at hok
          cases hok
        | ok pr =>
          obtain ⟨pm, res⟩ := pr
          rw [hadd] at hok
          simp only [] at hok
          obtain ⟨f1, f2, f3, f4, f5, f6, f7, f8⟩ :=
            DoAddValue_facts hinv hadd
          obtain ⟨g1, g2, g3, g4, g5, g6, g7, g8, g9⟩ :=
            completeGo_facts fuel pm p' f1 hok
          refine ⟨g1, g2, by omega, g4.trans f3, g5.trans f4, g6.trans f5,
            le_trans f6 g7, by omega, ?_⟩
          intro k hk
          rw [g9 k (by omega)]
          exact f8 k hk
    · rw [dif_neg h] at hok
      injection hok with h1
      subst h1
      exact ⟨hinv, by omega, le_refl _, rfl, rfl, rfl, le_refl _, le_refl _,
        fun k _ => rfl⟩

theorem completeGo_sim :
    ∀ (fuel : Nat) (p q p' : RowPacker), OffsetInv p → MidEq p q →
    RowPacker.completeGo fuel p = .ok p' →
    ∃ q', RowPacker.completeGo fuel q = .ok q' ∧ MidEq p' q'
  | 0, p, q, p', hinv, hR, hok => by
    obtain ⟨e1, e2, e3, e4, e5, hBA⟩ := hR
    have hR' : MidEq p q := ⟨e1, e2, e3, e4, e5, hBA⟩
    rw [RowPacker.completeGo] at hok
    by_cases hge : p.packing.columns.length ≤ p.idx
    · rw [if_pos hge] at hok
      injection hok with h1
      subst h1
      refine ⟨q, ?_, hR'⟩
      rw [RowPacker.completeGo, if_pos (by rw [← e1, ← e4]; exact hge)]
    · rw [if_neg hge] at hok
      cases hok
  | fuel + 1, p, q, p', hinv, hR, hok => by
    obtain ⟨e1, e2, e3, e4, e5, hBA⟩ := hR
    have hR' : MidEq p q := ⟨e1, e2, e3, e4, e5, hBA⟩
    rw [RowPacker.completeGo] at hok
    by_cases h : p.idx < p.packing.columns.length
    · have hq : q.idx < q.packing.columns.length := by
        rw [← e1, ← e4]
        exact h
      have hsame : q.packing.columns[q.idx] = p.packing.columns[p.idx] :=
        by
        have h1 : q.packing.columns[q.idx]? = p.packing.columns[p.idx]? := by
          rw [← e1, ← e4]
        rw [List.getElem?_eq_getElem hq, List.getElem?_eq_getElem h] at h1
        injection h1
      rw [dif_pos h] at hok
      simp only [] at hok
      cases hn : (p.packing.columns[p.idx]).nullable
      · rw [hn] at hok
        simp only [Bool.false_eq_true, if_false] at hok
        cases hok
      · rw [hn] at hok
        simp only [if_true] at hok
        cases hadd : p.AddValue (p.packing.columns[p.idx]).id [] 0 with
        | error e =>
          rw [hadd] at hok
          cases hok
        | ok pr =>
          obtain ⟨pm, res⟩ := pr
          rw [hadd] at hok
          simp only [] at hok
          obtain ⟨qm, haddq, hmid⟩ := DoAddValue_sim hinv hR' hadd
          have hfacts := DoAddValue_facts hinv hadd
          obtain ⟨q', hq', hmid'⟩ :=
            completeGo_sim fuel pm qm p' hfacts.1 hmid hok
          refine ⟨q', ?_, hmid'⟩
          rw [RowPacker.completeGo, dif_pos hq, hsame]
          simp only [] 
          rw [hn]
          simp only [if_true]
          rw [show q.AddValue (p.packing.columns[p.idx]).id [] 0 =
            Except.ok (qm, res) from haddq]
          simp only []
          exact hq'
    · rw [dif_neg h] at hok
      injection hok with h1
      subst h1
      refine ⟨q, ?_, hR'⟩
      rw [RowPacker.completeGo,
        dif_neg (show ¬q.idx < q.packing.columns.length by
          rw [← e1, ← e4]; exact h)]

theorem pos_eq_prefix_end_of_done {p : RowPacker} (hinv : OffsetInv p)
    (hdone : p.packing.columns.length ≤ p.idx) :
    p.varlen_write_pos = p.prefix_end := by
  obtain ⟨h1, h2, h3, h4⟩ := hinv
  have he : p.idx = p.packing.columns.length := le_antisymm h1 hdone
  rw [h4, he, List.take_length]
  rw [prefix_len_eq_varcount] at h2 ⊢
  omega

theorem Complete_facts {p p' : RowPacker} {bytes : List Nat}
    (hinv : OffsetInv p) (hok : p.Complete = .ok (p', bytes)) :
    OffsetInv p' ∧ bytes = p'.result ∧
    p'.varlen_write_pos = p'.prefix_end ∧
    p'.packing = p.packing ∧ p'.packed_size_limit = p.packed_size_limit ∧
    p'.prefix_end = p.prefix_end ∧
    p.result.length ≤ p'.result.length ∧
    p.varlen_write_pos ≤ p'.varlen_write_pos ∧
    (∀ k, k < p.varlen_write_pos → p'.result[k]? = p.result[k]?) := by
  rw [RowPacker.Complete] at hok
  cases hgo : RowPacker.completeGo p.packing.columns.length p with
  | error e =>
    rw [hgo] at hok
    cases hok
  | ok pm =>
    rw [hgo] at hok
    simp only [] at hok
    obtain ⟨g1, g2, g3, g4, g5, g6, g7, g8, g9⟩ :=
      completeGo_facts _ p pm hinv hgo
    by_cases hpe : pm.varlen_write_pos = pm.prefix_end
    · rw [if_pos hpe] at hok
      injection hok with h
      injection h with h1 h2
      subst h1
      subst h2
      exact ⟨g1, rfl, hpe, g4, g5, g6, g7, g8, g9⟩
    · rw [if_neg hpe] at hok
      cases hok

theorem Complete_sim {p q p' : RowPacker} {bytes : List Nat}
    (hinv : OffsetInv p) (hR : MidEq p q)
    (hok : p.Complete = .ok (p', bytes)) :
    ∃ q', q.Complete = .ok (q', bytes) ∧ MidEq p' q' := by
  obtain ⟨e1, e2, e3, e4, e5, hBA⟩ := hR
  have hR' : MidEq p q := ⟨e1, e2, e3, e4, e5, hBA⟩
  rw [RowPacker.Complete] at hok
  cases hgo : RowPacker.completeGo p.packing.columns.length p with
  | error e =>
    rw [hgo] at hok
    cases hok
  | ok pm =>
    rw [hgo] at hok
    simp only [] at hok
    obtain ⟨qm, hgoq, hmid⟩ := completeGo_sim _ p q pm hinv hR' hgo
    obtain ⟨m1, m2, m3, m4, m5, mBA⟩ := hmid
    by_cases hpe : pm.varlen_write_pos = pm.prefix_end
    · rw [if_pos hpe] at hok
      injection hok with h
      injection h with h1 h2
      subst h1
      subst h2
      have heq : pm.result = qm.result := by
        have hBA' := mBA
        rw [hpe] at hBA'
        exact hBA'.eq
      refine ⟨qm, ?_, ⟨m1, m2, m3, m4, m5, mBA⟩⟩
      rw [RowPacker.Complete,
        show q.packing.columns.length = p.packing.columns.length from
          by rw [← e1],
        hgoq]
      simp only []
      rw [if_pos (show qm.varlen_write_pos = qm.prefix_end from
        by rw [← m5, ← m3, hpe]), ← heq]
    · rw [if_neg hpe] at hok
      cases hok

theorem runAdds_facts : ∀ (cs : List PackCall) (p p' : RowPacker),
    OffsetInv p → runAdds cs p = .ok p' →
    OffsetInv p' ∧ p'.packing = p.packing ∧
    p'.packed_size_limit = p.packed_size_limit ∧
    p'.prefix_end = p.prefix_end ∧
    p.result.length ≤ p'.result.length ∧
    p.varlen_write_pos ≤ p'.varlen_write_pos ∧
    (∀ k, k < p.varlen_write_pos → p'.result[k]? = p.result[k]?)
  | [], p, p', hinv, hok => by
    injection hok with h1
    subst h1
    exact ⟨hinv, rfl, rfl, rfl, le_refl _, le_refl _, fun k _ => rfl⟩
  | c :: cs, p, p', hinv, hok => by
    rw [runAdds] at hok
    cases hadd : p.DoAddValue c.cid c.value c.tail with
    | error e =>
      rw [hadd] at hok
      cases hok
    | ok pr =>
      obtain ⟨pm, res⟩ := pr
      rw [hadd] at hok
      simp only [] at hok
      obtain ⟨f1, f2, f3, f4, f5, f6, f7, f8⟩ := DoAddValue_facts hinv hadd
      obtain ⟨g1, g2, g3, g4, g5, g6, g7⟩ := runAdds_facts cs pm p' f1 hok
      refine ⟨g1, g2.trans f3, g3.trans f4, g4.trans f5, le_trans f6 g5,
        by omega, ?_⟩
      intro k hk
      rw [g7 k (by omega)]
      exact f8 k hk

theorem runAdds_sim : ∀ (cs : List PackCall) (p q p' : RowPacker),
    OffsetInv p → MidEq p q → runAdds cs p = .ok p' →
    ∃ q', runAdds cs q = .ok q' ∧ MidEq p' q'
  | [], p, q, p', hinv, hR, hok => by
    injection hok with h1
    subst h1
    exact ⟨q, rfl, hR⟩
  | c :: cs, p, q, p', hinv, hR, hok => by
    rw [runAdds] at hok
    cases hadd : p.DoAddValue c.cid c.value c.tail with
    | error e =>
      rw [hadd] at hok
      cases hok
    | ok pr =>
      obtain ⟨pm, res⟩ := pr
      rw [hadd] at hok
      simp only [] at hok
      obtain ⟨qm, haddq, hmid⟩ := DoAddValue_sim hinv hR hadd
      have hfacts := DoAddValue_facts hinv hadd
      obtain ⟨q', hq', hmid'⟩ := runAdds_sim cs pm qm p' hfacts.1 hmid hok
      refine ⟨q', ?_, hmid'⟩
      rw [runAdds, haddq]
      simp only []
      exact hq'

theorem runSeq_facts {cs : List PackCall} {p p' : RowPacker}
    {bytes : List Nat} (hinv : OffsetInv p)
    (hok : runSeq cs p = .ok (p', bytes)) :
    OffsetInv p' ∧ bytes = p'.result ∧
    p'.varlen_write_pos = p'.prefix_end ∧
    p'.packing = p.packing ∧ p'.packed_size_limit = p.packed_size_limit ∧
    p'.prefix_end = p.prefix_end ∧
    p.result.length ≤ p'.result.length ∧
    p.varlen_write_pos ≤ p'.varlen_write_pos ∧
    (∀ k, k < p.varlen_write_pos → p'.result[k]? = p.result[k]?) := by
  rw [runSeq] at hok
  cases hadds : runAdds cs p with
  | error e =>
    rw [hadds] at hok
    cases hok
  | ok pm =>
    rw [hadds] at hok
    simp only [] at hok
    obtain ⟨f1, f2, f3, f4, f5, f6, f7⟩ := runAdds_facts cs p pm hinv hadds
    obtain ⟨g1, g2, g3, g4, g5, g6, g7, g8, g9⟩ := Complete_facts f1 hok
    refine ⟨g1, g2, g3, g4.trans f2, g5.trans f3, g6.trans f4,
      le_trans f5 g7, by omega, ?_⟩
    intro k hk
    rw [g9 k (by omega)]
    exact f7 k hk

theorem runSeq_sim {cs : List PackCall} {p q p' : RowPacker}
    {bytes : List Nat} (hinv : OffsetInv p) (hR : MidEq p q)
    (hok : runSeq cs p = .ok (p', bytes)) :
    ∃ q', runSeq cs q = .ok (q', bytes) ∧ MidEq p' q' := by
  rw [runSeq] at hok
  cases hadds : runAdds cs p with
  | error e =>
    rw [hadds] at hok
    cases hok
  | ok pm =>
    rw [hadds] at hok
    simp only [] at hok
    obtain ⟨qm, haddsq, hmid⟩ := runAdds_sim cs p q pm hinv hR hadds
    have hfacts := runAdds_facts cs p pm hinv hadds
    obtain ⟨q', hq', hmid'⟩ := Complete_sim hfacts.1 hmid hok
    refine ⟨q', ?_, hmid'⟩
    rw [runSeq, haddsq]
    simp only []
    exact hq'

/-- When the next undone descriptor's id equals the supplied column id,
`DoAddValue` is exactly one pass of the loop body. -/
theorem DoAddValue_matched {p : RowPacker} {col : ColumnPackingData}
    {cid : Nat} {v : PackableValue} {t : Int}
    (hcol : p.packing.columns[p.idx]? = some col) (hid : col.id = cid) :
    p.DoAddValue cid v t = p.consumeColumn col cid v t := by
  have hidx := getElem?_some_lt hcol
  rw [RowPacker.DoAddValue, if_neg (by omega)]
  cases hfe : p.packing.columns.length - p.idx with
  | zero => exact absurd hfe (by omega)
  | succ m =>
    rw [doAddValueGo_succ hcol, if_neg (by omega)]
    cases hcc : p.consumeColumn col cid v t with
    | error e => simp only [hcc]
    | ok pr =>
      obtain ⟨pm, res⟩ := pr
      simp only [hcc, if_pos hid]

/-- C10: after construction, after `Restart`, and after every `AddValue`
call that returns a value, the offset-table write cursor equals the
offset-table start (`prefix_end - prefix_len`) plus 4 bytes per
variable-length descriptor among the first `idx` consumed descriptors, with
`idx` within the column count and the buffer covering the reserved prefix
(the `OffsetInv` predicate); consequently, whenever all descriptors have
been consumed, the write cursor equals the end of the reserved prefix and
`Complete`'s final offset-table check passes. -/
theorem C10_offset_cursor_invariant :
    (∀ (version : Nat) (packing : SchemaPacking) (limit : Nat)
      (cf : List Nat), OffsetInv (RowPacker.Init version packing limit cf)) ∧
    (∀ p : RowPacker, OffsetInv p → OffsetInv p.Restart) ∧
    (∀ (p p' : RowPacker) (cid : Nat) (v : PackableValue) (t : Int)
      (b : Bool), OffsetInv p → p.DoAddValue cid v t = .ok (p', b) →
      OffsetInv p') ∧
    (∀ p : RowPacker, OffsetInv p → p.packing.columns.length ≤ p.idx →
      p.varlen_write_pos = p.prefix_end ∧
      p.Complete = .ok (p, p.result)) := by
  refine ⟨OffsetInv_Init, fun p h => OffsetInv_Restart h, ?_, ?_⟩
  · intro p p' cid v t b hinv hok
    exact (DoAddValue_facts hinv hok).1
  · intro p hinv hdone
    have hpos := pos_eq_prefix_end_of_done hinv hdone
    refine ⟨hpos, ?_⟩
    have hgo : RowPacker.completeGo p.packing.columns.length p = .ok p := by
      cases hc : p.packing.columns.length with
      | zero => rw [RowPacker.completeGo, if_pos hdone]
      | succ n => rw [RowPacker.completeGo, dif_neg (by omega)]
    rw [RowPacker.Complete, hgo]
    simp only []
    rw [if_pos hpos]

theorem C10_offset_cursor_invariant_witness :
    OffsetInv wPacker.Restart ∧
    OffsetInv wVar ∧
    wDone.varlen_write_pos = wDone.prefix_end ∧
    wDone.Complete = .ok (wDone, wDone.result) :=
  ⟨C10_offset_cursor_invariant.2.1 wPacker (by decide),
   C10_offset_cursor_invariant.2.2.1 wPacker wVar 1 (sliceValue [5, 5, 5, 5])
     0 true (by decide) (by decide),
   (C10_offset_cursor_invariant.2.2.2 wDone (by decide) (by decide)).1,
   (C10_offset_cursor_invariant.2.2.2 wDone (by decide) (by decide)).2⟩

/-- C1: for every column descriptor consumed by the `AddValue` loop —
`consumeColumn` is the loop's per-descriptor body, entered whether the value
is appended, is null, or is omitted for overflow — a variable-length
descriptor gets exactly one little-endian 4-byte unsigned integer written
into the next offset-table slot, whose value is the buffer length written
so far relative to the start of the payload region (the end of the reserved
prefix), inclusive of that column, and the offset-table write cursor
advances by 4 bytes, every other reserved-prefix byte unchanged; a
fixed-width descriptor leaves the write cursor and the entire reserved
prefix untouched. -/
theorem C1_offset_table_write (p p' : RowPacker) (col : ColumnPackingData)
    (cid : Nat) (v : PackableValue) (t : Int) (b : Bool)
    (hinv : OffsetInv p) (hcol : p.packing.columns[p.idx]? = some col)
    (hok : p.consumeColumn col cid v t = .ok (p', b)) :
    (col.varlen = true →
      p'.varlen_write_pos = p.varlen_write_pos + 4 ∧
      (∀ i, i < 4 → p'.result[p.varlen_write_pos + i]? =
        (le32 (p'.result.length - p'.prefix_end))[i]?) ∧
      (∀ k, k < p.varlen_write_pos ∨
          (p.varlen_write_pos + 4 ≤ k ∧ k < p.prefix_end) →
        p'.result[k]? = p.result[k]?)) ∧
    (col.varlen = false →
      p'.varlen_write_pos = p.varlen_write_pos ∧
      (∀ k, k < p.prefix_end → p'.result[k]? = p.result[k]?)) := by
  obtain ⟨f1, f2, f3, f4, f5, f6, f7, f8, f9, f10⟩ :=
    consumeColumn_facts hinv hcol hok
  constructor
  · intro hv
    refine ⟨by rw [f7, hv]; simp, ?_, f8⟩
    intro i hi
    rw [f5]
    exact f9 hv i hi
  · intro hv
    exact ⟨by rw [f7, hv]; simp, f10 hv⟩

theorem C1_offset_table_write_witness :
    (wVar.consumeColumn wCol2 2 (sliceValue [8, 8]) 0).isOk = true ∧
    wVarRes.varlen_write_pos = wVar.varlen_write_pos + 4 :=
  ⟨by decide,
   ((C1_offset_table_write wVar wVarRes wCol2 2 (sliceValue [8, 8]) 0 true
      (by decide) (by decide) (by decide)).1 rfl).1⟩

/-- C2: for a matched variable-length column whose nullable-null shortcut
does not apply: when the current buffer size plus the value's packed size
plus the supplied tail size exceeds the configured size limit, `AddValue`
returns `false`, no byte of the value is appended (the buffer length and
the whole payload region are unchanged), and the column's offset-table slot
records the unchanged running total; otherwise the value's bytes are
appended (the payload grows by exactly `packBytes`), the slot records the
running total inclusive of them, and `AddValue` returns `true`. -/
theorem C2_size_limit_overflow (p p' : RowPacker) (col : ColumnPackingData)
    (cid : Nat) (v : PackableValue) (t : Int) (b : Bool)
    (hinv : OffsetInv p) (hcol : p.packing.columns[p.idx]? = some col)
    (hid : col.id = cid) (hv : col.varlen = true)
    (hnn : ¬(col.nullable = true ∧ v.isNull = true))
    (hok : p.DoAddValue cid v t = .ok (p', b)) :
    (((p.result.length : Int) + v.packedSize + t >
        (p.packed_size_limit : Int)) →
      b = false ∧ p'.result.length = p.result.length ∧
      (∀ k, p.prefix_end ≤ k → p'.result[k]? = p.result[k]?) ∧
      (∀ i, i < 4 → p'.result[p.varlen_write_pos + i]? =
        (le32 (p.result.length - p.prefix_end))[i]?)) ∧
    (¬((p.result.length : Int) + v.packedSize + t >
        (p.packed_size_limit : Int)) →
      b = true ∧ p'.result.length = p.result.length + v.packBytes.length ∧
      (∀ j, p'.result[p.result.length + j]? = v.packBytes[j]?) ∧
      (∀ i, i < 4 → p'.result[p.varlen_write_pos + i]? =
        (le32 (p.result.length + v.packBytes.length -
          p.prefix_end))[i]?)) := by
  have hpe := hinv.2.2.1
  have hpos4 := pos_add_four_le hinv hcol hv
  have hlt : ¬col.id < cid := by omega
  have hnv : (!col.nullable || !v.isNull) = true := by
    cases hcn : col.nullable
    · rfl
    · cases hcz : v.isNull
      · rfl
      · exact absurd ⟨hcn, hcz⟩ hnn
  rw [DoAddValue_matched hcol hid] at hok
  constructor
  · intro hov
    rw [consumeColumn_overflow hlt hnv hv hov] at hok
    injection hok with h
    injection h with h1 h2
    subst h2
    obtain ⟨f1, f2, f3, f4, f5, f6, f7, f8, f9⟩ :=
      writeVarlenSlot_facts p
        { p with idx := p.idx + 1, result := p.result ++ [] } []
        rfl rfl rfl hpos4 hpe
    have hb : ({ p with idx := p.idx + 1 } : RowPacker) =
        { p with idx := p.idx + 1, result := p.result ++ [] } := by simp
    rw [← hb] at f1 f7 f8 f9
    rw [h1] at f1 f7 f8 f9
    refine ⟨rfl, by rw [f1]; simp, ?_, ?_⟩
    · intro k hk
      rw [f9 k hk, List.append_nil]
    · intro i hi
      rw [f8 i hi]
      simp
  · intro hov
    rw [consumeColumn_pack_varlen hlt hnv hv hov] at hok
    injection hok with h
    injection h with h1 h2
    subst h2
    obtain ⟨f1, f2, f3, f4, f5, f6, f7, f8, f9⟩ :=
      writeVarlenSlot_facts p
        { p with idx := p.idx + 1, result := p.result ++ v.packBytes }
        v.packBytes rfl rfl rfl hpos4 hpe
    rw [h1] at f1 f7 f8 f9
    refine ⟨rfl, f1, ?_, f8⟩
    intro j
    rw [f9 (p.result.length + j) (by omega),
      List.getElem?_append_right (by omega)]
    congr 1
    omega

theorem C2_size_limit_overflow_witness :
    wOver.DoAddValue 2 (sliceValue [7, 7, 7]) 0 = .ok (wOverRes, false) ∧
    wOverRes.result.length = wOver.result.length :=
  ⟨by decide,
   ((C2_size_limit_overflow wOver wOverRes wCol2 2 (sliceValue [7, 7, 7]) 0
      false (by decide) (by decide) rfl rfl (by decide) (by decide)).1
      (by decide)).2.1⟩

/-- C4: when the packer has already consumed all schema columns, or when the
next undone descriptor's column id exceeds the supplied column id, the call
returns `false` with the packer state entirely unchanged (no descriptor
consumed, buffer and offset cursor untouched) if the supplied id is a
recognized skipped column of the schema packing, and fails with an
invalid-argument error otherwise. -/
theorem C4_unexpected_column (p : RowPacker) (cid : Nat) (v : PackableValue)
    (t : Int) :
    (p.packing.columns.length ≤ p.idx →
      p.DoAddValue cid v t =
        (if p.packing.SkippedColumn cid then .ok (p, false)
         else .error .invalidArgument)) ∧
    (∀ col, p.packing.columns[p.idx]? = some col → col.id > cid →
      p.DoAddValue cid v t =
        (if p.packing.SkippedColumn cid then .ok (p, false)
         else .error .invalidArgument)) := by
  constructor
  · intro hge
    rw [RowPacker.DoAddValue, if_pos hge]
  · intro col hcol hgt
    have hidx := getElem?_some_lt hcol
    rw [RowPacker.DoAddValue, if_neg (by omega)]
    cases hfe : p.packing.columns.length - p.idx with
    | zero => exact absurd hfe (by omega)
    | succ m => rw [doAddValueGo_succ hcol, if_pos hgt]

theorem C4_unexpected_column_witness :
    wDone.DoAddValue 10 (sliceValue [1]) 0 = .ok (wDone, false) ∧
    wDone.DoAddValue 11 (sliceValue [1]) 0 = .error .invalidArgument :=
  ⟨((C4_unexpected_column wDone 10 (sliceValue [1]) 0).1
      (by decide)).trans (by decide),
   ((C4_unexpected_column wDone 11 (sliceValue [1]) 0).1
      (by decide)).trans (by decide)⟩

/-- Consuming a nullable gap column (spec-well-formed: variable-length, or
declared fixed width 0) always succeeds with flag `true`. -/
theorem skip_gap_ok {p : RowPacker} {ci : ColumnPackingData} {cid : Nat}
    {v : PackableValue} {t : Int}
    (hci : ci.id < cid) (hn : ci.nullable = true)
    (hwf : ci.varlen = true ∨ ci.size = 0) :
    ∃ pm, p.consumeColumn ci cid v t = .ok (pm, true) := by
  rcases bool_eq_false_or_true ci.varlen with hv | hv
  · have hsz : ci.size = 0 := hwf.resolve_left (by simp [hv])
    exact ⟨_, by rw [consumeColumn_skip_fixed hci hn hv, if_pos hsz]⟩
  · exact ⟨_, by rw [consumeColumn_skip_varlen hci hn hv]⟩

/-- Filling the next descriptor (nullable, spec-well-formed) with a null
`AddValue(id, Slice(), 0)`: it succeeds, consumes exactly that descriptor,
appends zero payload bytes, and for a variable-length column writes the
unchanged running total into its offset slot. -/
theorem addNull_next_ok {p : RowPacker} {ci : ColumnPackingData}
    (hinv : OffsetInv p) (hci : p.packing.columns[p.idx]? = some ci)
    (hn : ci.nullable = true) (hwf : ci.varlen = true ∨ ci.size = 0) :
    ∃ pm, p.AddValue ci.id [] 0 = .ok (pm, true) ∧ OffsetInv pm ∧
      pm.idx = p.idx + 1 ∧ pm.packing = p.packing ∧
      pm.packed_size_limit = p.packed_size_limit ∧
      pm.prefix_end = p.prefix_end ∧
      pm.result.length = p.result.length ∧
      (∀ k, p.prefix_end ≤ k → pm.result[k]? = p.result[k]?) ∧
      (ci.varlen = true → ∀ i, i < 4 →
        pm.result[p.varlen_write_pos + i]? =
          (le32 (p.result.length - p.prefix_end))[i]?) ∧
      (ci.varlen = false → pm.result = p.result) := by
  have hpe := hinv.2.2.1
  have hlt : ¬ci.id < ci.id := by omega
  rcases bool_eq_false_or_true ci.varlen with hv | hv
  · have hsz : ci.size = 0 := hwf.resolve_left (by simp [hv])
    refine ⟨{ p with idx := p.idx + 1 }, ?_, ?_, rfl, rfl, rfl, rfl, rfl,
      fun k _ => rfl, ?_, fun _ => rfl⟩
    · rw [RowPacker.AddValue, DoAddValue_matched hci rfl,
        consumeColumn_match_null_fixed hlt hn rfl hv, if_pos hsz]
    · exact OffsetInv_bump hinv hci rfl rfl rfl hpe (by rw [hv]; simp)
    · intro ht
      exact absurd (hv.symm.trans ht) (by decide)
  · obtain ⟨f1, f2, f3, f4, f5, f6, f7, f8, f9⟩ :=
      writeVarlenSlot_facts p { p with idx := p.idx + 1 } []
        (by simp) rfl rfl (pos_add_four_le hinv hci hv) hpe
    simp only [List.length_nil, Nat.add_zero] at f1 f8
    refine ⟨RowPacker.writeVarlenSlot { p with idx := p.idx + 1 },
      ?_, ?_, f3, f4, f6, f5, f1, ?_, fun _ => f8, ?_⟩
    · rw [RowPacker.AddValue, DoAddValue_matched hci rfl,
        consumeColumn_match_null_varlen hlt hn rfl hv]
    · exact OffsetInv_bump hinv hci f4 f5 f3 (by omega)
        (by rw [f2, hv]; simp)
    · intro k hk
      rw [f9 k hk, List.append_nil]
    · intro hf
      exact absurd (hv.symm.trans hf) (by decide)

/-- Skipping over gap columns up to a non-nullable one at position `j`
makes the whole `DoAddValue` call fail with an invalid-argument error. -/
theorem gap_nonnullable_error : ∀ (n : Nat) (p : RowPacker) (cid : Nat)
    (v : PackableValue) (t : Int) (j : Nat) (colj : ColumnPackingData),
    OffsetInv p → p.packing.columns[j]? = some colj →
    p.idx ≤ j → j - p.idx = n → colj.id < cid → colj.nullable = false →
    (∀ i, p.idx ≤ i → i < j → ∃ ci, p.packing.columns[i]? = some ci ∧
      ci.nullable = true ∧ ci.id < cid ∧ (ci.varlen = true ∨ ci.size = 0)) →
    p.DoAddValue cid v t = .error .invalidArgument
  | 0, p, cid, v, t, j, colj, hinv, hcolj, hle, hn0, hltj, hnnj, _ => by
    have hj : p.idx = j := by omega
    rw [← hj] at hcolj
    have hidx := getElem?_some_lt hcolj
    rw [RowPacker.DoAddValue, if_neg (by omega)]
    cases hfe : p.packing.columns.length - p.idx with
    | zero => exact absurd hfe (by omega)
    | succ m =>
      rw [doAddValueGo_succ hcolj, if_neg (by omega),
        consumeColumn_missing_nonnullable hltj hnnj]
  | n + 1, p, cid, v, t, j, colj, hinv, hcolj, hle, hn1, hltj, hnnj,
      hmid => by
    obtain ⟨ci, hci, hcin, hcilt, hciwf⟩ := hmid p.idx (le_refl _) (by omega)
    have hidx := getElem?_some_lt hci
    have hjlt := getElem?_some_lt hcolj
    obtain ⟨pm, hcc⟩ :=
      skip_gap_ok (p := p) (v := v) (t := t) hcilt hcin hciwf
    obtain ⟨f1, f2, f3, f4, f5, f6, f7, f8, f9, f10⟩ :=
      consumeColumn_facts hinv hci hcc
    have hne : ¬ci.id = cid := by omega
    have hmid' : ∀ i, pm.idx ≤ i → i < j →
        ∃ ci', pm.packing.columns[i]? = some ci' ∧ ci'.nullable = true ∧
          ci'.id < cid ∧ (ci'.varlen = true ∨ ci'.size = 0) := by
      intro i h1 h2
      obtain ⟨ci', hci', hr1, hr2, hr3⟩ := hmid i (by omega) h2
      exact ⟨ci', by rw [f3]; exact hci', hr1, hr2, hr3⟩
    have hrec := gap_nonnullable_error n pm cid v t j colj f1
      (by rw [f3]; exact hcolj) (by omega) (by omega) hltj hnnj hmid'
    rw [RowPacker.DoAddValue, if_neg (by omega)]
    cases hfe : p.packing.columns.length - p.idx with
    | zero => exact absurd hfe (by omega)
    | succ m =>
      rw [doAddValueGo_succ hci, if_neg (by omega), hcc]
      simp only []
      rw [if_neg hne]
      rw [RowPacker.DoAddValue,
        if_neg (show ¬pm.packing.columns.length ≤ pm.idx by
          rw [f3, f2]; omega)] at hrec
      have hm : m = pm.packing.columns.length - pm.idx := by
        rw [f3, f2]
        omega
      rw [hm]
      exact hrec

/-- Reaching a non-nullable descriptor in the `Complete` fill loop fails
with an invalid-argument error. -/
theorem completeGo_nonnullable_error : ∀ (n fuel : Nat) (p : RowPacker)
    (j : Nat) (colj : ColumnPackingData),
    OffsetInv p → p.packing.columns[j]? = some colj →
    p.idx ≤ j → j - p.idx = n → n < fuel → colj.nullable = false →
    (∀ i, p.idx ≤ i → i < j → ∃ ci, p.packing.columns[i]? = some ci ∧
      ci.nullable = true ∧ (ci.varlen = true ∨ ci.size = 0)) →
    RowPacker.completeGo fuel p = .error .invalidArgument
  | 0, fuel, p, j, colj, hinv, hcolj, hle, hn0, hfuel, hnnj, _ => by
    have hj : p.idx = j := by omega
    rw [← hj] at hcolj
    have hidx := getElem?_some_lt hcolj
    cases fuel with
    | zero => exact absurd hfuel (by omega)
    | succ f =>
      rw [RowPacker.completeGo, dif_pos hidx]
      simp only []
      have hgetEq : p.packing.columns[p.idx] = colj := by
        rw [List.getElem?_eq_getElem hidx] at hcolj
        injection hcolj
      rw [hgetEq, hnnj]
      simp only [Bool.false_eq_true, if_false]
  | n + 1, fuel, p, j, colj, hinv, hcolj, hle, hn1, hfuel, hnnj, hmid => by
    cases fuel with
    | zero => exact absurd hfuel (by omega)
    | succ f =>
      obtain ⟨ci, hci, hcin, hciwf⟩ := hmid p.idx (le_refl _) (by omega)
      have hidx := getElem?_some_lt hci
      have hgetEq : p.packing.columns[p.idx] = ci := by
        rw [List.getElem?_eq_getElem hidx] at hci
        injection hci
      obtain ⟨pm, hadd, hinvm, hidxm, hpkm, hlimm, hpem, hlenm, _, _, _⟩ :=
        addNull_next_ok hinv hci hcin hciwf
      have hmid' : ∀ i, pm.idx ≤ i → i < j →
          ∃ ci', pm.packing.columns[i]? = some ci' ∧ ci'.nullable = true ∧
            (ci'.varlen = true ∨ ci'.size = 0) := by
        intro i h1 h2
        obtain ⟨ci', hci', hr1, hr2⟩ := hmid i (by omega) h2
        exact ⟨ci', by rw [hpkm]; exact hci', hr1, hr2⟩
      have hrec := completeGo_nonnullable_error n f pm j colj hinvm
        (by rw [hpkm]; exact hcolj) (by omega) (by omega) (by omega)
        hnnj hmid'
      rw [RowPacker.completeGo, dif_pos hidx]
      simp only []
      rw [hgetEq, hcin]
      simp only [if_true]
      rw [hadd]
      simp only []
      exact hrec

/-- C5: supplying values out of order such that a non-nullable column is
skipped over as a gap during `AddValue`, or leaving a non-nullable column
unconsumed when `Complete` is called, always yields an invalid-argument
error surfaced synchronously from the offending call (the functional model
returns the error and no successor state, so no corrupted buffer can be
observed).  Well-formedness of the nullable columns crossed on the way
(variable-length, or declared width 0 — the spec's "a non-zero fixed size
column can never itself be null") is assumed. -/
theorem C5_nonnullable_omission :
    (∀ (p : RowPacker) (cid : Nat) (v : PackableValue) (t : Int) (j : Nat)
      (colj : ColumnPackingData), OffsetInv p →
      p.packing.columns[j]? = some colj → p.idx ≤ j →
      colj.id < cid → colj.nullable = false →
      (∀ i, p.idx ≤ i → i < j → ∃ ci, p.packing.columns[i]? = some ci ∧
        ci.nullable = true ∧ ci.id < cid ∧
        (ci.varlen = true ∨ ci.size = 0)) →
      p.DoAddValue cid v t = .error .invalidArgument) ∧
    (∀ (p : RowPacker) (j : Nat) (colj : ColumnPackingData), OffsetInv p →
      p.packing.columns[j]? = some colj → p.idx ≤ j →
      colj.nullable = false →
      (∀ i, p.idx ≤ i → i < j → ∃ ci, p.packing.columns[i]? = some ci ∧
        ci.nullable = true ∧ (ci.varlen = true ∨ ci.size = 0)) →
      p.Complete = .error .invalidArgument) := by
  constructor
  · intro p cid v t j colj hinv hcolj hle hltj hnnj hmid
    exact gap_nonnullable_error (j - p.idx) p cid v t j colj hinv hcolj hle
      rfl hltj hnnj hmid
  · intro p j colj hinv hcolj hle hnnj hmid
    have hjlt := getElem?_some_lt hcolj
    have herr := completeGo_nonnullable_error (j - p.idx)
      p.packing.columns.length p j colj hinv hcolj hle rfl (by omega)
      hnnj hmid
    rw [RowPacker.Complete, herr]

theorem C5_nonnullable_omission_witness :
    wPacker.DoAddValue 3 (sliceValue [1, 2]) 0 = .error .invalidArgument ∧
    wVar.Complete = .error .invalidArgument :=
  ⟨C5_nonnullable_omission.1 wPacker 3 (sliceValue [1, 2]) 0 0 wCol1
    (by decide) (by decide) (by decide) (by decide) (by decide)
    (fun i h1 h2 => absurd h2 (by omega)),
   C5_nonnullable_omission.2 wVar 2 wCol3 (by decide) (by decide)
    (by decide) (by decide)
    (fun i h1 h2 => by
      have h1' : 1 ≤ i := h1
      have hi : i = 1 := by omega
      subst hi
      exact ⟨wCol2, by decide, rfl, Or.inl rfl⟩)⟩

/-- The `Complete` fill loop over remaining nullable (spec-well-formed)
descriptors succeeds, consumes them all, and appends zero payload bytes. -/
theorem complete_nulls_ok : ∀ (n fuel : Nat) (p : RowPacker),
    OffsetInv p → p.packing.columns.length - p.idx = n → n ≤ fuel →
    (∀ i, p.idx ≤ i → i < p.packing.columns.length →
      ∃ ci, p.packing.columns[i]? = some ci ∧ ci.nullable = true ∧
        (ci.varlen = true ∨ ci.size = 0)) →
    ∃ p', RowPacker.completeGo fuel p = .ok p' ∧ OffsetInv p' ∧
      p'.packing.columns.length ≤ p'.idx ∧ p'.packing = p.packing ∧
      p'.prefix_end = p.prefix_end ∧
      p'.result.length = p.result.length ∧
      (∀ k, p.prefix_end ≤ k → p'.result[k]? = p.result[k]?)
  | 0, fuel, p, hinv, hn0, hfuel, _ => by
    have hge : p.packing.columns.length ≤ p.idx := by omega
    cases fuel with
    | zero =>
      refine ⟨p, ?_, hinv, hge, rfl, rfl, rfl, fun k _ => rfl⟩
      rw [RowPacker.completeGo, if_pos hge]
    | succ f =>
      refine ⟨p, ?_, hinv, hge, rfl, rfl, rfl, fun k _ => rfl⟩
      rw [RowPacker.completeGo, dif_neg (by omega)]
  | n + 1, fuel, p, hinv, hn1, hfuel, hmid => by
    have hidx : p.idx < p.packing.columns.length := by omega
    cases fuel with
    | zero => exact absurd hfuel (by omega)
    | succ f =>
      obtain ⟨ci, hci, hcin, hciwf⟩ := hmid p.idx (le_refl _) hidx
      have hgetEq : p.packing.columns[p.idx] = ci := by
        rw [List.getElem?_eq_getElem hidx] at hci
        injection hci
      obtain ⟨pm, hadd, hinvm, hidxm, hpkm, hlimm, hpem, hlenm, hkgem,
        _, _⟩ := addNull_next_ok hinv hci hcin hciwf
      have hmid' : ∀ i, pm.idx ≤ i → i < pm.packing.columns.length →
          ∃ ci', pm.packing.columns[i]? = some ci' ∧ ci'.nullable = true ∧
            (ci'.varlen = true ∨ ci'.size = 0) := by
        intro i h1 h2
        rw [hpkm] at h2 ⊢
        exact hmid i (by omega) h2
      obtain ⟨p', hgo, g1, g2, g3, g4, g5, g6⟩ :=
        complete_nulls_ok n f pm hinvm (by rw [hpkm, hidxm]; omega)
          (by omega) hmid'
      refine ⟨p', ?_, g1, g2, g3.trans hpkm, g4.trans hpem,
        g5.trans hlenm, ?_⟩
      · rw [RowPacker.completeGo, dif_pos hidx]
        simp only []
        rw [hgetEq, hcin]
        simp only [if_true]
        rw [hadd]
        simp only []
        exact hgo
      · intro k hk
        rw [g6 k (by rw [hpem]; exact hk)]
        exact hkgem k hk

/-- C6: for every nullable column omitted entirely by the caller, the packer
synthesizes a null entry of zero payload bytes.  First conjunct: a gap
descriptor skipped during `AddValue` appends nothing, leaves the payload
region untouched, and — when variable-length — records the unchanged
running total in its offset slot; when fixed-width (declared width
necessarily 0 for a nullable column, per the spec) it leaves the buffer
bytes entirely unchanged, a zero-filled entry of the declared width.
Second conjunct: `Complete` fills every remaining nullable column the same
way and succeeds, returning bytes of unchanged length with the payload
region untouched. -/
theorem C6_null_synthesis :
    (∀ (p : RowPacker) (ci : ColumnPackingData) (cid : Nat)
      (v : PackableValue) (t : Int) (pm : RowPacker) (b : Bool),
      OffsetInv p → p.packing.columns[p.idx]? = some ci →
      ci.id < cid → ci.nullable = true →
      p.consumeColumn ci cid v t = .ok (pm, b) →
      b = true ∧ pm.result.length = p.result.length ∧
      (∀ k, p.prefix_end ≤ k → pm.result[k]? = p.result[k]?) ∧
      (ci.varlen = true → ∀ i, i < 4 →
        pm.result[p.varlen_write_pos + i]? =
          (le32 (p.result.length - p.prefix_end))[i]?) ∧
      (ci.varlen = false → pm.result = p.result)) ∧
    (∀ p : RowPacker, OffsetInv p →
      (∀ i, p.idx ≤ i → i < p.packing.columns.length →
        ∃ ci, p.packing.columns[i]? = some ci ∧ ci.nullable = true ∧
          (ci.varlen = true ∨ ci.size = 0)) →
      ∃ p' bytes, p.Complete = .ok (p', bytes) ∧
        bytes.length = p.result.length ∧
        (∀ k, p.prefix_end ≤ k → bytes[k]? = p.result[k]?)) := by
  constructor
  · intro p ci cid v t pm b hinv hci hlt hn hok
    have hpe := hinv.2.2.1
    have hposle := pos_le_prefix_end hinv
    rcases bool_eq_false_or_true ci.varlen with hv | hv
    · rw [consumeColumn_skip_fixed hlt hn hv] at hok
      by_cases hsz : ci.size = 0
      · rw [if_pos hsz] at hok
        injection hok with h
        injection h with h1 h2
        subst h2
        rw [← h1]
        exact ⟨rfl, rfl, fun k _ => rfl,
          fun ht => absurd (hv.symm.trans ht) (by decide), fun _ => rfl⟩
      · rw [if_neg hsz] at hok
        cases hok
    · rw [consumeColumn_skip_varlen hlt hn hv] at hok
      injection hok with h
      injection h with h1 h2
      subst h2
      obtain ⟨f1, f2, f3, f4, f5, f6, f7, f8, f9⟩ :=
        writeVarlenSlot_facts p { p with idx := p.idx + 1 } []
          (by simp) rfl rfl (pos_add_four_le hinv hci hv) hpe
      simp only [List.length_nil, Nat.add_zero] at f1 f8
      rw [h1] at f1 f8 f9
      refine ⟨rfl, f1, ?_, fun _ => f8,
        fun hf => absurd (hv.symm.trans hf) (by decide)⟩
      intro k hk
      rw [f9 k hk, List.append_nil]
  · intro p hinv hmid
    obtain ⟨p', hgo, g1, g2, g3, g4, g5, g6⟩ :=
      complete_nulls_ok (p.packing.columns.length - p.idx)
        p.packing.columns.length p hinv rfl (by omega) hmid
    have hpos : p'.varlen_write_pos = p'.prefix_end :=
      pos_eq_prefix_end_of_done g1 g2
    refine ⟨p', p'.result, ?_, g5, ?_⟩
    · rw [RowPacker.Complete, hgo]
      simp only []
      rw [if_pos hpos]
    · intro k hk
      rw [g6 k hk]

theorem C6_null_synthesis_witness :
    (wVar.consumeColumn wCol2 3 (sliceValue [9, 9]) 0).isOk = true ∧
    wVarGap.result.length = wVar.result.length :=
  ⟨by decide,
   (C6_null_synthesis.1 wVar wCol2 3 (sliceValue [9, 9]) 0 wVarGap true
     (by decide) (by decide) (by decide) rfl (by decide)).2.1⟩

/-- C7 counterexample: at the concrete state `pBad` — descriptor cursor
done, offset-table write cursor short of the reserved-prefix end —
`Complete` surfaces an invalid-argument error (`RSTATUS_DCHECK_EQ(...,
InvalidArgument, "Not all varlen columns packed")`), not a corruption /
fatal-invariant error, refuting the claim that both fatal-invariant
conditions propagate as corruption errors. -/
theorem C7_counterexample :
    pBad.Complete = .error .invalidArgument ∧
    PackerError.invalidArgument ≠ PackerError.corruption := by decide

/-- C7 (amended): a fixed-width column whose packed byte count does not
match its declared size propagates a corruption error, and an offset table
not fully populated when `Complete` is called propagates an
invalid-argument error; both are surfaced to the caller as errors, never
silently tolerated. -/
theorem C7_fatal_invariants (p : RowPacker) (col : ColumnPackingData)
    (cid : Nat) (v : PackableValue) (t : Int)
    (hcol : p.packing.columns[p.idx]? = some col) (hid : col.id = cid)
    (hv : col.varlen = false)
    (hnn : ¬(col.nullable = true ∧ v.isNull = true))
    (hsz : v.packBytes.length ≠ col.size) :
    p.DoAddValue cid v t = .error .corruption ∧
    (∀ q : RowPacker, q.packing.columns.length ≤ q.idx →
      q.varlen_write_pos ≠ q.prefix_end →
      q.Complete = .error .invalidArgument) := by
  constructor
  · have hlt : ¬col.id < cid := by omega
    have hnv : (!col.nullable || !v.isNull) = true := by
      cases hcn : col.nullable
      · rfl
      · cases hcz : v.isNull
        · rfl
        · exact absurd ⟨hcn, hcz⟩ hnn
    rw [DoAddValue_matched hcol hid, consumeColumn_pack_fixed hlt hnv hv,
      if_neg (fun h => hsz h.symm)]
  · intro q hge hne
    have hgo : RowPacker.completeGo q.packing.columns.length q = .ok q := by
      cases hc : q.packing.columns.length with
      | zero => rw [RowPacker.completeGo, if_pos hge]
      | succ n => rw [RowPacker.completeGo, dif_neg (by omega)]
    rw [RowPacker.Complete, hgo]
    simp only []
    rw [if_neg hne]

theorem C7_fatal_invariants_witness :
    wPacker.DoAddValue 1 (sliceValue [9]) 0 = .error .corruption ∧
    pBad.Complete = .error .invalidArgument :=
  ⟨(C7_fatal_invariants wPacker wCol1 1 (sliceValue [9]) 0 (by decide) rfl
      rfl (by decide) (by decide)).1,
   (C7_fatal_invariants wPacker wCol1 1 (sliceValue [9]) 0 (by decide) rfl
      rfl (by decide) (by decide)).2 pBad (by decide) (by decide)⟩

/-- C3: given payload bytes beginning at the schema-version varint whose
leading varint decodes to a version the mapping contains, the remapper
produces exactly the encoded control fields, the packed-row kind marker
byte, the varint of the mapped version, and every remaining payload byte
unchanged, with a success status. -/
theorem C3_replace_schema_version (value control_fields rest : List Nat)
    (schema_versions_map : List (Nat × Nat)) (out0 : List Nat)
    (sv mv : Nat)
    (hdec : FastDecodeUnsignedVarInt value = some (sv, rest))
    (hmap : FindOrNull schema_versions_map sv = some mv) :
    ReplaceSchemaVersionInPackedValue value control_fields
        schema_versions_map out0 =
      (.ok (), control_fields ++ [kPackedRow] ++
        FastEncodeUnsignedVarInt mv ++ rest) := by
  rw [ReplaceSchemaVersionInPackedValue, hdec]
  simp only []
  rw [hmap]

theorem C3_replace_schema_version_witness :
    ReplaceSchemaVersionInPackedValue [5, 1, 2, 3] [250] [(5, 9)] [99] =
      (.ok (), [250] ++ [kPackedRow] ++ FastEncodeUnsignedVarInt 9 ++
        [1, 2, 3]) :=
  C3_replace_schema_version [5, 1, 2, 3] [250] [1, 2, 3] [(5, 9)] [99] 5 9
    (by decide) (by decide)

/-- C8 counterexample: with a mapping lacking the decoded version, the
remapper fails with not-found, but the caller's output buffer has by then
already been truncated and populated with the encoded control fields and
the row-kind marker (`out->Truncate(0)`, `AppendEncoded`, `PushBack` all
run before the lookup), so "does not allocate (produce) an output — the
output is not populated" is false: the final buffer is neither empty nor
its original contents. -/
theorem C8_counterexample :
    (ReplaceSchemaVersionInPackedValue [5] [250] [] [99]).1 =
      .error .notFound ∧
    (ReplaceSchemaVersionInPackedValue [5] [250] [] [99]).2 ≠ [] ∧
    (ReplaceSchemaVersionInPackedValue [5] [250] [] [99]).2 ≠ [99] := by
  decide

/-- C8 (amended): with a mapping lacking the decoded version the remapper
fails with a not-found error, and the output buffer is left truncated and
holding exactly the encoded control fields followed by the row-kind marker
byte — no version varint and no payload bytes are produced. -/
theorem C8_not_found_populates_prefix (value control_fields rest : List Nat)
    (schema_versions_map : List (Nat × Nat)) (out0 : List Nat) (sv : Nat)
    (hdec : FastDecodeUnsignedVarInt value = some (sv, rest))
    (hmap : FindOrNull schema_versions_map sv = none) :
    ReplaceSchemaVersionInPackedValue value control_fields
        schema_versions_map out0 =
      (.error .notFound, control_fields ++ [kPackedRow]) := by
  rw [ReplaceSchemaVersionInPackedValue, hdec]
  simp only []
  rw [hmap]

theorem C8_not_found_populates_prefix_witness :
    ReplaceSchemaVersionInPackedValue [5] [250] [] [99] =
      (.error .notFound, [250] ++ [kPackedRow]) :=
  C8_not_found_populates_prefix [5] [250] [] [] [99] 5
    (by decide) (by decide)

/-- After any use that only grows the buffer and leaves the low prefix
intact, `Restart` brings the packer back into the `MidEq` relation with the
state it started from. -/
theorem restart_mid {p0 p1 : RowPacker}
    (h0len : p0.result.length = p0.prefix_end)
    (h0pos : p0.varlen_write_pos =
      p0.prefix_end - p0.packing.prefix_len)
    (h0idx : p0.idx = 0)
    (hinv0 : OffsetInv p0)
    (g4 : p1.packing = p0.packing)
    (g5 : p1.packed_size_limit = p0.packed_size_limit)
    (g6 : p1.prefix_end = p0.prefix_end)
    (g7 : p0.result.length ≤ p1.result.length)
    (g9 : ∀ k, k < p0.varlen_write_pos →
      p1.result[k]? = p0.result[k]?) :
    MidEq p0 p1.Restart := by
  have hposle := pos_le_prefix_end hinv0
  have hpe1 : p1.prefix_end ≤ p1.result.length := by
    rw [g6, ← h0len]
    exact g7
  refine ⟨g4.symm, g5.symm, g6.symm, by rw [h0idx]; rfl, ?_, ?_, ?_, ?_⟩
  · show p0.varlen_write_pos = p1.prefix_end - p1.packing.prefix_len
    rw [g6, g4, h0pos]
  · show p0.result.length = (p1.result.take p1.prefix_end).length
    rw [List.length_take, Nat.min_eq_left hpe1, g6, h0len]
  · intro k hk
    show p0.result[k]? = (p1.result.take p1.prefix_end)[k]?
    rw [List.getElem?_take, if_pos (by rw [g6]; omega), g9 k hk]
  · intro k hk
    show p0.result[k]? = (p1.result.take p1.prefix_end)[k]?
    rw [List.getElem?_take, if_neg (by rw [g6]; omega),
      List.getElem?_eq_none (by rw [h0len]; omega)]

/-- C9: for every sequence of `AddValue` calls whose replay from a freshly
constructed packer (given schema version, schema packing, size limit and
control fields) succeeds through `Complete` with final bytes `bytes`,
calling `Restart` on the used packer and replaying the identical sequence
again succeeds and produces exactly the same final byte sequence. -/
theorem C9_restart_reproduces (version : Nat) (packing : SchemaPacking)
    (limit : Nat) (control_fields : List Nat) (cs : List PackCall)
    (p1 : RowPacker) (bytes : List Nat)
    (hok : runSeq cs
        (RowPacker.Init version packing limit control_fields) =
      .ok (p1, bytes)) :
    Except.map Prod.snd (runSeq cs p1.Restart) = .ok bytes := by
  have hinv0 := OffsetInv_Init version packing limit control_fields
  obtain ⟨g1, g2, g3, g4, g5, g6, g7, g8, g9⟩ := runSeq_facts hinv0 hok
  have hmid := restart_mid rfl rfl rfl hinv0 g4 g5 g6 g7 g9
  obtain ⟨q', hq', _⟩ := runSeq_sim hinv0 hmid hok
  rw [hq']
  rfl

theorem C9_restart_reproduces_witness :
    Except.map Prod.snd (runSeq wCalls wDone.Restart) = .ok wBytes :=
  C9_restart_reproduces 7 wPacking 100 [200, 201] wCalls wDone wBytes
    (by decide)

